import Mathlib

/-!
Verification development for the kleinanzeigen-bot repository.

Shallow embedding of the parts of the code the claims are about:
* `Scraper.web_await` (src/kleinanzeigen_bot/utils/scraper.py)
* `Scraper.web_select`'s injected option-selection script (scraper.py)
* `AdPartial` price validation (src/kleinanzeigen_bot/model/ad_model.py)
* the shipping-option resolver `__set_shipping_options` (publish.py)
* the ad-id extraction in `publish_ad` (publish.py)
* the publish workflow `publish_ads` / `publish_ad` (publish.py)
* `apply_defaults` (src/kleinanzeigen_bot/utils/dicts.py), both as a pure
  value-level function and on an explicit heap to talk about aliasing.
-/

deriving instance DecidableEq for Except

namespace Scraper

/-- Outcome of one run of the bounded poll primitive `Scraper.web_await`. -/
inductive PollOutcome (ε α : Type) where
  | success (v : α)
  | raised (e : ε)
  | timedOut (msg : String)
deriving DecidableEq, Repr

/-- Default timeout message of `web_await`
(`f"Condition not met within {timeout} seconds"`; the numeric timeout
interpolation is not modelled). -/
def defaultTimeoutMessage : String := "Condition not met within timeout seconds"

/-- Embedding of `Scraper.web_await` (scraper.py lines 94-119).

The check is modelled as a function from the invocation index to
`Except ε (Option α)`: `.error e` models the check raising `e`,
`.ok none` models a falsy result (`if result:` fails), `.ok (some v)` a
truthy result.  `exceeds i` models `loop.time() - start_at > timeout`
evaluated after invocation `i`.  The `await self.page` refresh and the
0.5 s sleep have no observable effect in this model.  `fuel` bounds the
unrolling of the unbounded `while True:` loop; `none` means the loop did
not terminate within `fuel` iterations.

Note the Python code sets `ex: Optional[Exception] = None` at the TOP of
every loop iteration, so only the error of the current (final) invocation
can ever be re-raised on timeout. -/
def web_await (check : Nat → Except ε (Option α)) (exceeds : Nat → Bool)
    (msg : String) : Nat → Nat → Option (PollOutcome ε α)
  | _, 0 => none
  | i, fuel + 1 =>
    -- each iteration starts with `ex = None`
    match check i with
    | .ok (some v) => some (.success v)
    | .ok none =>
      if exceeds i then
        -- `ex` is None here: generic TimeoutError
        some (.timedOut (if msg = "" then defaultTimeoutMessage else msg))
      else
        web_await check exceeds msg (i + 1) fuel
    | .error e =>
      if exceeds i then
        -- `ex` was captured in THIS iteration: re-raise it
        some (.raised e)
      else
        web_await check exceeds msg (i + 1) fuel

/-- `r` is not a truthy check result. -/
def notTruthy (r : Except ε (Option α)) : Prop :=
  match r with
  | .ok (some _) => False
  | _ => True

instance (r : Except ε (Option α)) [DecidableEq ε] [DecidableEq α] :
    Decidable (notTruthy r) := by
  unfold notTruthy
  match r with
  | .ok (some _) => exact inferInstanceAs (Decidable False)
  | .ok none => exact inferInstanceAs (Decidable True)
  | .error _ => exact inferInstanceAs (Decidable True)

/-- One unproductive iteration (not truthy, not timed out) advances the
loop index and consumes one unit of fuel. -/
theorem web_await_step (check : Nat → Except ε (Option α)) (exceeds : Nat → Bool)
    (msg : String) (i fuel : Nat)
    (h1 : notTruthy (check i)) (h2 : exceeds i = false) :
    web_await check exceeds msg i (fuel + 1) =
      web_await check exceeds msg (i + 1) fuel := by
  match hres : check i with
  | .ok (some v) => unfold notTruthy at h1; rw [hres] at h1; exact absurd h1 not_false
  | .ok none => simp only [web_await, hres, h2, if_false, Bool.false_eq_true]
  | .error e => simp only [web_await, hres, h2, if_false, Bool.false_eq_true]

/-- Skipping `k` unproductive iterations (not truthy, not timed out)
advances the loop index by `k` and consumes `k` units of fuel. -/
theorem web_await_skip (check : Nat → Except ε (Option α)) (exceeds : Nat → Bool)
    (msg : String) :
    ∀ (k i fuel : Nat),
      (∀ j, j < k → notTruthy (check (i + j)) ∧ exceeds (i + j) = false) →
      web_await check exceeds msg i (k + fuel) =
        web_await check exceeds msg (i + k) fuel := by
  intro k
  induction k with
  | zero => intro i fuel _; simp
  | succ k ih =>
    intro i fuel h
    have h0 := h 0 (Nat.succ_pos k)
    simp only [Nat.add_zero] at h0
    have hstep : (k + 1) + fuel = (k + fuel) + 1 := by omega
    rw [hstep, web_await_step check exceeds msg i (k + fuel) h0.1 h0.2]
    have hrest := ih (i + 1) fuel (fun j hj => by
      have hs := h (j + 1) (by omega)
      rw [show i + (j + 1) = i + 1 + j by omega] at hs
      exact hs)
    rw [hrest, show i + 1 + k = i + (k + 1) by omega]

/-- Run-level characterization of `web_await`: if the first `k` invocations
are unproductive (not truthy) and do not exceed the timeout, the run is
decided by invocation `k`. -/
theorem web_await_run (check : Nat → Except ε (Option α)) (exceeds : Nat → Bool)
    (msg : String) (k fuel : Nat)
    (hpre : ∀ j, j < k → notTruthy (check j) ∧ exceeds j = false)
    (hfuel : k < fuel) :
    (∀ v, check k = .ok (some v) →
      web_await check exceeds msg 0 fuel = some (.success v)) ∧
    (check k = .ok none → exceeds k = true →
      web_await check exceeds msg 0 fuel =
        some (.timedOut (if msg = "" then defaultTimeoutMessage else msg))) ∧
    (∀ e, check k = .error e → exceeds k = true →
      web_await check exceeds msg 0 fuel = some (.raised e)) := by
  obtain ⟨m, hm⟩ : ∃ m, fuel - k = m + 1 := ⟨fuel - k - 1, by omega⟩
  have hsplit : fuel = k + (m + 1) := by omega
  have hskip := web_await_skip check exceeds msg k 0 (m + 1)
    (fun j hj => by simpa using hpre j hj)
  simp only [Nat.zero_add] at hskip
  rw [hsplit, hskip]
  refine ⟨?_, ?_, ?_⟩
  · intro v hres
    simp only [web_await, hres]
  · intro hres hex
    simp only [web_await, hres, hex, if_true]
  · intro e hres hex
    simp only [web_await, hres, hex, if_true]

end Scraper

/-- Concrete check for the C1 counterexample: raises on its first
invocation, returns a falsy value from then on. -/
def c1CheckEx : Nat → Except String (Option Nat) :=
  fun i => if i = 0 then .error "boom" else .ok none

/-- Concrete clock for the C1 counterexample: the timeout is exceeded from
the second invocation on. -/
def c1ExceedsEx : Nat → Bool := fun i => decide (1 ≤ i)

/-- Concrete check for the C1 witness: falsy twice, truthy on the third
invocation. -/
def c1CheckW : Nat → Except String (Option Nat) :=
  fun i => if i < 2 then .ok none else .ok (some 7)

/-- Concrete check for the C1 witness (raising variant): always raises. -/
def c1CheckR : Nat → Except String (Option Nat) := fun i => .error ("err" ++ toString i)

/-- Concrete clock for the C1 witnesses: timeout exceeded from the third
invocation on. -/
def c1ExceedsW : Nat → Bool := fun i => decide (2 ≤ i)

/-- Claim C1 (counterexample): the claim says that when elapsed time
exceeds the timeout, `web_await` raises the last error remembered at ANY
point during the polling window if one was captured, and only otherwise a
generic `TimeoutError`.  Here the first invocation raises `"boom"` (an
error is captured during the window), the second invocation returns a
falsy value and exceeds the timeout — yet the code raises the generic
`TimeoutError`, because `ex` is reset to `None` at the top of every loop
iteration. -/
theorem c1_web_await_counterexample :
    c1CheckEx 0 = .error "boom" ∧
    Scraper.web_await c1CheckEx c1ExceedsEx "op failed" 0 5 =
      some (.timedOut "op failed") := by
  constructor
  · rfl
  · rfl

/-- Claim C1 (amended): for every check and timeout clock, if the first
`k` invocations return non-truthy results or raise, without exceeding the
timeout: a truthy value at invocation `k` is returned immediately; if the
timeout is exceeded at invocation `k`, the primitive raises the error of
that FINAL invocation if it raised, and otherwise (the final invocation
returned a falsy value) a generic `TimeoutError` with the
operation-specific message. -/
theorem c1_web_await_amended (check : Nat → Except String (Option Nat))
    (exceeds : Nat → Bool) (msg : String) (k fuel : Nat)
    (hpre : ∀ j, j < k → Scraper.notTruthy (check j) ∧ exceeds j = false)
    (hfuel : k < fuel) :
    (∀ v, check k = .ok (some v) →
      Scraper.web_await check exceeds msg 0 fuel = some (.success v)) ∧
    (check k = .ok none → exceeds k = true →
      Scraper.web_await check exceeds msg 0 fuel =
        some (.timedOut (if msg = "" then Scraper.defaultTimeoutMessage else msg))) ∧
    (∀ e, check k = .error e → exceeds k = true →
      Scraper.web_await check exceeds msg 0 fuel = some (.raised e)) :=
  Scraper.web_await_run check exceeds msg k fuel hpre hfuel

/-- Witness for the amended C1 theorem at concrete inputs: a check that
becomes truthy on its 3rd invocation returns that value, and a check that
always raises ends in the error of the final invocation, never a generic
timeout. -/
theorem c1_web_await_amended_witness :
    Scraper.web_await c1CheckW c1ExceedsW "m" 0 9 = some (.success 7) ∧
    Scraper.web_await c1CheckR c1ExceedsW "m" 0 9 = some (.raised "err2") := by
  constructor
  · exact (c1_web_await_amended c1CheckW c1ExceedsW "m" 2 9
      (by decide) (by decide)).1 7 rfl
  · exact (c1_web_await_amended c1CheckR c1ExceedsW "m" 2 9
      (by decide) (by decide)).2.2 "err2" rfl (by decide)

namespace Select

/-- Observable state of the `<select>` element manipulated by the script
that `Scraper.web_select` injects via `elem.apply` (scraper.py
lines 369-381). -/
structure SelectElemState where
  selectedIndex : Option Nat
  changeDispatched : Bool
deriving DecidableEq, Repr

/-- The `for(let i=0; i < element.options.length; i++)` loop of the
injected script: on the first option whose value equals the requested
value it sets `selectedIndex`, dispatches a `change` event and breaks. -/
def select_option_loop (options : List String) (value : String) (i : Nat)
    (st : SelectElemState) : SelectElemState :=
  match options with
  | [] => st
  | o :: rest =>
    if o = value then { selectedIndex := some i, changeDispatched := true }
    else select_option_loop rest value (i + 1) st

/-- Embedding of the full injected script of `Scraper.web_select`.  The
`throw new Error("Option with value ... not found.")` statement sits AFTER
the loop and is not guarded, so it executes unconditionally: after a
successful match the `break` leaves the loop and falls straight into the
`throw`. -/
def select_option_script (options : List String) (value : String)
    (st : SelectElemState) : SelectElemState × Except String Unit :=
  (select_option_loop options value 0 st,
   .error ("Option with value " ++ value ++ " not found."))

/-- Claim C4 (code bug): `web_select` is claimed (and documented) to set
the selection, dispatch a change notification and return successfully
when the requested value is among the options, failing with an "option
not found" error exactly when the value is absent.  The injected script
does set the selection and dispatch the change event for a present value,
but then unconditionally throws the "not found" error, because the
`throw` is placed after the loop without any found-flag.  Evaluated at
the price-type call site (`web_select(By.ID, "micro-frontend-price-type",
"NEGOTIABLE")`) with the value present among the options. -/
theorem c4_web_select_bug :
    (select_option_script ["NEGOTIABLE", "FIXED"] "NEGOTIABLE"
        ⟨none, false⟩).1 = ⟨some 0, true⟩ ∧
    (select_option_script ["NEGOTIABLE", "FIXED"] "NEGOTIABLE"
        ⟨none, false⟩).2 =
      .error "Option with value NEGOTIABLE not found." ∧
    (select_option_script ["NEGOTIABLE", "FIXED"] "GIVE_AWAY"
        ⟨none, false⟩).1 = ⟨none, false⟩ ∧
    (select_option_script ["NEGOTIABLE", "FIXED"] "GIVE_AWAY"
        ⟨none, false⟩).2 =
      .error "Option with value GIVE_AWAY not found." := by
  refine ⟨rfl, rfl, rfl, rfl⟩

end Select

namespace AdModel

/-- The raw `price_type` and `price` entries of the value dict handed to
pydantic before validation (ad_model.py).  `none` models an absent or
null entry. -/
structure RawPriceFields where
  price_type : Option String
  price : Option Int
deriving DecidableEq, Repr

/-- Embedding of the `mode = "before"` model validator
`AdPartial._validate_price_and_price_type` (ad_model.py lines 79-88). -/
def validate_price_and_price_type (values : RawPriceFields) :
    Except String RawPriceFields :=
  if values.price_type = some "GIVE_AWAY" ∧ values.price ≠ none then
    .error "price must not be specified when price_type is GIVE_AWAY"
  else if values.price_type = some "FIXED" ∧ values.price = none then
    .error "price is required when price_type is FIXED"
  else
    .ok values

/-- Field-level validation of `price : int` on `AdPartial` (ad_model.py
line 52): the field has no default and is not Optional, so a missing or
null value is rejected by pydantic. -/
def priceFieldValid (values : RawPriceFields) : Bool :=
  values.price.isSome

/-- Field-level validation of
`price_type: Literal["FIXED","NEGOTIABLE","GIVE_AWAY","NOT_APPLICABLE"] | None`
(ad_model.py line 56). -/
def priceTypeFieldValid (v : Option String) : Bool :=
  match v with
  | none => true
  | some s => s ∈ ["FIXED", "NEGOTIABLE", "GIVE_AWAY", "NOT_APPLICABLE"]

/-- The price-relevant part of `AdPartial.model_validate`: pydantic first
runs the `mode = "before"` model validator, then validates the declared
fields. -/
def adPartialValidatePriceFields (values : RawPriceFields) :
    Except String RawPriceFields :=
  match validate_price_and_price_type values with
  | .error e => .error e
  | .ok v =>
    if priceFieldValid v && priceTypeFieldValid v.price_type then .ok v
    else .error "field validation failed: price is required / price_type invalid"

end AdModel

/-- Claim C3 (code bug): the claim (matching the validator's own error
messages) says GIVE_AWAY with a null price is accepted.  The dedicated
validator `_validate_price_and_price_type` indeed accepts it, but
`AdPartial` declares `price: int` as a required non-optional field, so
model validation as a whole rejects every GIVE_AWAY ad: the combination
the validator demands (`price` absent) can never pass field validation.
The other three combinations behave as claimed. -/
theorem c3_price_validation_bug :
    AdModel.validate_price_and_price_type ⟨some "GIVE_AWAY", none⟩ =
      .ok ⟨some "GIVE_AWAY", none⟩ ∧
    AdModel.adPartialValidatePriceFields ⟨some "GIVE_AWAY", none⟩ =
      .error "field validation failed: price is required / price_type invalid" ∧
    AdModel.adPartialValidatePriceFields ⟨some "GIVE_AWAY", some 1⟩ =
      .error "price must not be specified when price_type is GIVE_AWAY" ∧
    AdModel.adPartialValidatePriceFields ⟨some "FIXED", none⟩ =
      .error "price is required when price_type is FIXED" ∧
    AdModel.adPartialValidatePriceFields ⟨some "FIXED", some 10⟩ =
      .ok ⟨some "FIXED", some 10⟩ := by
  refine ⟨rfl, ?_, ?_, ?_, ?_⟩ <;> rfl

namespace Shipping

/-- The static table `shipping_options_mapping` of `__set_shipping_options`
(publish.py lines 225-235): tag ↦ (size class, package label). -/
def shipping_options_mapping : List (String × String × String) :=
  [("DHL_2", ("Klein", "Paket 2 kg")),
   ("Hermes_Päckchen", ("Klein", "Päckchen")),
   ("Hermes_S", ("Klein", "S-Paket")),
   ("DHL_5", ("Mittel", "Paket 5 kg")),
   ("Hermes_M", ("Mittel", "M-Paket")),
   ("DHL_10", ("Groß", "Paket 10 kg")),
   ("DHL_20", ("Groß", "Paket 20 kg")),
   ("DHL_31,5", ("Groß", "Paket 31,5 kg")),
   ("Hermes_L", ("Groß", "L-Paket"))]

/-- `set(...)` applied to a list: deduplicate, keeping first occurrences
(the claims only depend on the resulting membership, not on Python's set
iteration order). -/
def pySet (xs : List String) : List String :=
  xs.foldl (fun acc x => if acc.contains x then acc else acc ++ [x]) []

/-- `[shipping_options_mapping[option] for option in set(...)]` with the
`KeyError` branch (publish.py lines 236-239). -/
def mappedOf (opts : List String) : Except String (List (String × String)) :=
  let req := pySet opts
  if req.all (fun o => (shipping_options_mapping.lookup o).isSome) then
    .ok (req.filterMap (fun o => shipping_options_mapping.lookup o))
  else
    .error "Unknown shipping option(s), please refer to the documentation/README"

/-- A UI mutation performed (successfully) inside
`__set_shipping_options`.  A `web_click` whose element lookup times out
performs no mutation and therefore produces no event. -/
inductive ShipEvent where
  | clickSizeRadio (size : String)
  | clickContinue
  | clickPackage (pkg : String)
  | clickApply
deriving DecidableEq, Repr

/-- Errors raised by `__set_shipping_options`. -/
inductive ShipErr where
  | keyError (msg : String)
  | valueError (msg : String)
  | timeoutError (msg : String)
deriving DecidableEq, Repr

/-- Browser environment for `__set_shipping_options`: the outcome of each
scraper primitive the function invokes.  `radioChecked = none` models the
`web_find` of the size radio timing out; `some b` models the element being
found with `hasattr(attrs, "checked") == b`. -/
structure ShipEnv where
  radioChecked : Option Bool
  clickRadioOk : Bool
  clickContinueOk : Bool
  clickPackageOk : String → Bool
  clickApplyOk : Bool

/-- The unwanted packages when the size radio is already checked: all
packages of that size class in the table that are not among the requested
packages (publish.py lines 253-256). -/
def unwantedPackages (size : String) (requested : List String) : List String :=
  ((shipping_options_mapping.map Prod.snd).filter
    (fun p => p.1 = size && !(requested.contains p.2))).map Prod.snd

/-- The per-package toggle loop (publish.py lines 264-271): each package
click that times out is logged and skipped. -/
def packageClickEvents (env : ShipEnv) (pkgs : List String) : List ShipEvent :=
  (pkgs.filter env.clickPackageOk).map ShipEvent.clickPackage

/-- The "Weiter" click followed by the package toggles.  A timeout on the
"Weiter" click aborts the surrounding `try` block (publish.py line 262),
so no package toggles happen. -/
def continueAndPackages (env : ShipEnv) (pkgs : List String) : List ShipEvent :=
  if env.clickContinueOk then
    ShipEvent.clickContinue :: packageClickEvents env pkgs
  else []

/-- The big `try` block of `__set_shipping_options` (publish.py
lines 248-275).  All exceptions it can raise are `TimeoutError`s and are
caught by its `except`, so it only contributes UI events. -/
def shippingTryBlock (env : ShipEnv) (size : String) (packages : List String) :
    List ShipEvent :=
  match env.radioChecked with
  | none => []
  | some checked =>
    if checked then
      continueAndPackages env (unwantedPackages size packages)
    else
      if env.clickRadioOk then
        ShipEvent.clickSizeRadio size :: continueAndPackages env packages
      else []

/-- Embedding of `__set_shipping_options` (publish.py lines 221-280),
returning the UI events performed and the final outcome. -/
def set_shipping_options (env : ShipEnv) (opts : List String) :
    List ShipEvent × Except ShipErr Unit :=
  if opts.isEmpty then ([], .ok ()) else
  match mappedOf opts with
  | .error m => ([], .error (.keyError m))
  | .ok mapped =>
    match pySet (mapped.map Prod.fst) with
    | [size] =>
      let evs := shippingTryBlock env size (mapped.map Prod.snd)
      if env.clickApplyOk then (evs ++ [.clickApply], .ok ())
      else (evs, .error (.timeoutError "Unable to close shipping dialog!"))
    | _ =>
      ([], .error (.valueError "You can only specify shipping options for one package size!"))

/-- The packages toggled during a run. -/
def toggledPackages (evs : List ShipEvent) : List String :=
  evs.filterMap (fun e => match e with
    | .clickPackage p => some p
    | _ => none)

end Shipping

/-- Claim C6: whenever the table mapping of the requested tags yields more
than one distinct size class, `__set_shipping_options` raises the
single-size violation `ValueError` before performing any UI mutation:
the event list is empty, so no click has happened. -/
theorem c6_shipping_single_size_violation (env : Shipping.ShipEnv)
    (opts : List String) (mapped : List (String × String))
    (hmap : Shipping.mappedOf opts = .ok mapped)
    (hsizes : 1 < (Shipping.pySet (mapped.map Prod.fst)).length) :
    Shipping.set_shipping_options env opts =
      ([], .error (.valueError "You can only specify shipping options for one package size!")) := by
  have hne : opts ≠ [] := by
    intro h
    subst h
    simp [Shipping.mappedOf, Shipping.pySet] at hmap
    subst hmap
    simp [Shipping.pySet] at hsizes
  unfold Shipping.set_shipping_options
  rw [if_neg (by simpa [List.isEmpty_iff] using hne), hmap]
  match hs : Shipping.pySet (mapped.map Prod.fst) with
  | [] => rw [hs] at hsizes; simp at hsizes
  | [s] => rw [hs] at hsizes; simp at hsizes
  | a :: b :: rest => simp [hs]

/-- Witness for C6 at the spec's concrete input: tags
`{"DHL_2","DHL_10"}` map to the two size classes Klein and Groß, so
resolution fails before any click occurs (with an arbitrary concrete
browser environment). -/
theorem c6_shipping_single_size_violation_witness :
    Shipping.set_shipping_options
        ⟨some true, true, true, fun _ => true, true⟩ ["DHL_2", "DHL_10"] =
      ([], .error (.valueError "You can only specify shipping options for one package size!")) :=
  c6_shipping_single_size_violation
    ⟨some true, true, true, fun _ => true, true⟩ ["DHL_2", "DHL_10"]
    [("Klein", "Paket 2 kg"), ("Groß", "Paket 10 kg")] rfl (by decide)

namespace Shipping

theorem toggledPackages_append (a b : List ShipEvent) :
    toggledPackages (a ++ b) = toggledPackages a ++ toggledPackages b := by
  simp [toggledPackages, List.filterMap_append]

theorem toggledPackages_map (xs : List String) :
    toggledPackages (xs.map ShipEvent.clickPackage) = xs := by
  induction xs with
  | nil => rfl
  | cons x xs ih => simp [toggledPackages, List.filterMap_cons] at ih ⊢; exact ih

theorem toggledPackages_continue (l : List ShipEvent) :
    toggledPackages (ShipEvent.clickContinue :: l) = toggledPackages l := by
  simp [toggledPackages, List.filterMap_cons]

theorem toggledPackages_radio (s : String) (l : List ShipEvent) :
    toggledPackages (ShipEvent.clickSizeRadio s :: l) = toggledPackages l := by
  simp [toggledPackages, List.filterMap_cons]

theorem toggledPackages_apply : toggledPackages [ShipEvent.clickApply] = [] := rfl

/-- The resolved result of `__set_shipping_options` when the requested
tags map to the single size class `s`: the event list is the try-block
events followed by the `Fertig` click (when that click succeeds). -/
theorem set_shipping_options_single (env : ShipEnv) (opts : List String)
    (mapped : List (String × String)) (s : String)
    (hne : opts ≠ [])
    (hmap : mappedOf opts = .ok mapped)
    (hsize : pySet (mapped.map Prod.fst) = [s]) :
    Shipping.set_shipping_options env opts =
      (let evs := shippingTryBlock env s (mapped.map Prod.snd)
       if env.clickApplyOk then (evs ++ [.clickApply], .ok ())
       else (evs, .error (.timeoutError "Unable to close shipping dialog!"))) := by
  unfold set_shipping_options
  rw [if_neg (by simpa [List.isEmpty_iff] using hne), hmap]
  simp only [hsize]

end Shipping

/-- Claim C7: for every requested tag set mapping to a single size class:
when that size class's radio control is already selected, the packages
toggled are exactly the table packages of that size class that are not in
the requested package set (no radio click happens); when it is not yet
selected, the radio is clicked and every requested package is toggled on.
The clicks are assumed to find their elements (`env` hypotheses), matching
the claim's description of the normal path.  In particular, tags
`{"DHL_2","Hermes_S"}` resolve to size "Klein" with packages
`{"Paket 2 kg","S-Paket"}`. -/
theorem c7_shipping_single_size_resolution (env : Shipping.ShipEnv)
    (opts : List String) (mapped : List (String × String)) (s : String)
    (hmap : Shipping.mappedOf opts = .ok mapped)
    (hsize : Shipping.pySet (mapped.map Prod.fst) = [s])
    (hcont : env.clickContinueOk = true)
    (hpkg : ∀ p, env.clickPackageOk p = true)
    (hradio : env.clickRadioOk = true) :
    (env.radioChecked = some true →
      Shipping.toggledPackages (Shipping.set_shipping_options env opts).1 =
        Shipping.unwantedPackages s (mapped.map Prod.snd) ∧
      ∀ sz, Shipping.ShipEvent.clickSizeRadio sz ∉
        (Shipping.set_shipping_options env opts).1) ∧
    (env.radioChecked = some false →
      Shipping.ShipEvent.clickSizeRadio s ∈
        (Shipping.set_shipping_options env opts).1 ∧
      Shipping.toggledPackages (Shipping.set_shipping_options env opts).1 =
        mapped.map Prod.snd) ∧
    Shipping.mappedOf ["DHL_2", "Hermes_S"] =
      .ok [("Klein", "Paket 2 kg"), ("Klein", "S-Paket")] ∧
    Shipping.pySet ([("Klein", "Paket 2 kg"), ("Klein", "S-Paket")].map
      (Prod.fst (β := String))) = ["Klein"] := by
  have hne : opts ≠ [] := by
    intro h
    subst h
    simp [Shipping.mappedOf, Shipping.pySet] at hmap
    subst hmap
    simp [Shipping.pySet] at hsize
  have hres := Shipping.set_shipping_options_single env opts mapped s hne hmap hsize
  have hfilter : ∀ xs : List String, xs.filter env.clickPackageOk = xs := by
    intro xs
    exact List.filter_eq_self.mpr (fun a _ => hpkg a)
  refine ⟨?_, ?_, rfl, rfl⟩
  · intro hchecked
    have hblock : Shipping.shippingTryBlock env s (mapped.map Prod.snd) =
        Shipping.ShipEvent.clickContinue ::
          (Shipping.unwantedPackages s (mapped.map Prod.snd)).map
            Shipping.ShipEvent.clickPackage := by
      unfold Shipping.shippingTryBlock Shipping.continueAndPackages
        Shipping.packageClickEvents
      rw [hchecked, hfilter]
      simp [hcont]
    rw [hres]
    cases happ : env.clickApplyOk with
    | true =>
      simp only [if_true, hblock]
      constructor
      · rw [Shipping.toggledPackages_append, Shipping.toggledPackages_continue,
          Shipping.toggledPackages_map, Shipping.toggledPackages_apply,
          List.append_nil]
      · intro sz
        simp [List.mem_append, List.mem_map]
    | false =>
      simp only [if_false, hblock, Bool.false_eq_true]
      constructor
      · rw [Shipping.toggledPackages_continue, Shipping.toggledPackages_map]
      · intro sz
        simp [List.mem_map]
  · intro hchecked
    have hblock : Shipping.shippingTryBlock env s (mapped.map Prod.snd) =
        Shipping.ShipEvent.clickSizeRadio s ::
          Shipping.ShipEvent.clickContinue ::
            (mapped.map Prod.snd).map Shipping.ShipEvent.clickPackage := by
      unfold Shipping.shippingTryBlock Shipping.continueAndPackages
        Shipping.packageClickEvents
      rw [hchecked]
      simp [hcont, hradio, hfilter, List.map_map]
    rw [hres]
    cases happ : env.clickApplyOk with
    | true =>
      simp only [if_true, hblock]
      constructor
      · simp
      · rw [show (Shipping.ShipEvent.clickSizeRadio s ::
            Shipping.ShipEvent.clickContinue ::
              (mapped.map Prod.snd).map Shipping.ShipEvent.clickPackage) ++
              [Shipping.ShipEvent.clickApply] =
            Shipping.ShipEvent.clickSizeRadio s ::
              Shipping.ShipEvent.clickContinue ::
                ((mapped.map Prod.snd).map Shipping.ShipEvent.clickPackage ++
                  [Shipping.ShipEvent.clickApply]) by simp,
          Shipping.toggledPackages_radio, Shipping.toggledPackages_continue,
          Shipping.toggledPackages_append, Shipping.toggledPackages_map,
          Shipping.toggledPackages_apply, List.append_nil]
    | false =>
      simp only [if_false, hblock, Bool.false_eq_true]
      constructor
      · simp
      · rw [Shipping.toggledPackages_radio, Shipping.toggledPackages_continue,
          Shipping.toggledPackages_map]

/-- Concrete environment for the C7 witness: size radio already checked,
every click succeeds. -/
def c7EnvChecked : Shipping.ShipEnv := ⟨some true, true, true, fun _ => true, true⟩

/-- Concrete environment for the C7 witness: size radio not yet checked,
every click succeeds. -/
def c7EnvUnchecked : Shipping.ShipEnv := ⟨some false, true, true, fun _ => true, true⟩

/-- Witness for C7 at the spec's concrete input `{"DHL_2","Hermes_S"}`
(size "Klein", packages `{"Paket 2 kg","S-Paket"}`): with the Klein radio
already checked the only toggled package is the unwanted "Päckchen"; with
the radio unchecked the radio is clicked and exactly the requested
packages are toggled. -/
theorem c7_shipping_single_size_resolution_witness :
    Shipping.toggledPackages
        (Shipping.set_shipping_options c7EnvChecked ["DHL_2", "Hermes_S"]).1 =
      ["Päckchen"] ∧
    Shipping.ShipEvent.clickSizeRadio "Klein" ∈
      (Shipping.set_shipping_options c7EnvUnchecked ["DHL_2", "Hermes_S"]).1 ∧
    Shipping.toggledPackages
        (Shipping.set_shipping_options c7EnvUnchecked ["DHL_2", "Hermes_S"]).1 =
      ["Paket 2 kg", "S-Paket"] := by
  have h1 := (c7_shipping_single_size_resolution c7EnvChecked ["DHL_2", "Hermes_S"]
    [("Klein", "Paket 2 kg"), ("Klein", "S-Paket")] "Klein" rfl rfl rfl
    (fun _ => rfl) rfl).1 rfl
  have h2 := (c7_shipping_single_size_resolution c7EnvUnchecked ["DHL_2", "Hermes_S"]
    [("Klein", "Paket 2 kg"), ("Klein", "S-Paket")] "Klein" rfl rfl rfl
    (fun _ => rfl) rfl).2.1 rfl
  refine ⟨?_, h2.1, ?_⟩
  · rw [h1.1]; rfl
  · rw [h2.2]; rfl

namespace Publish

/-- Exceptions flowing through the publish workflow.  `timeout` models
Python `TimeoutError` (the only kind caught by the local
`except TimeoutError` blocks); `other` models every other exception
(`KeyError`, `ValueError`, `IndexError`, validation errors, ...). -/
inductive PErr where
  | timeout (msg : String)
  | other (msg : String)
deriving DecidableEq, Repr

/-- The message printed when an exception is caught by the per-ad
`except Exception as e: print(e)` handler in `publish_ads`. -/
def PErr.text : PErr → String
  | .timeout m => m
  | .other m => m

/-- Split a character list at the first occurrence of `c`. -/
def splitFirst (c : Char) : List Char → Option (List Char × List Char)
  | [] => none
  | x :: xs =>
    if x = c then some ([], xs)
    else (splitFirst c xs).map (fun p => (x :: p.1, p.2))

/-- `urllib.parse.urlparse(url).query`: the part of the URL after the
first `?`, with the fragment (everything from the first `#` on) removed
first.  Scheme/netloc parsing is irrelevant to the query. -/
def urlQuery (url : String) : String :=
  let noFrag := url.toList.takeWhile (fun c => c ≠ '#')
  match splitFirst '?' noFrag with
  | none => ""
  | some p => String.mk p.2

/-- Split a character list on every occurrence of `c` (like
`str.split(c)`: `n` separators produce `n + 1` chunks, possibly empty). -/
def splitOnChar (c : Char) : List Char → List (List Char)
  | [] => [[]]
  | x :: xs =>
    let r := splitOnChar c xs
    if x = c then [] :: r
    else
      match r with
      | [] => [[x]]
      | y :: ys => (x :: y) :: ys

/-- `urllib.parse.parse_qs` restricted to what the code consumes: the
ordered name/value pairs.  With the default `keep_blank_values = False`,
chunks without `=` and pairs with an empty value are dropped.
Percent-decoding and `+`-decoding are not modelled (the inputs of
interest contain no escapes). -/
def parse_qs_pairs (query : String) : List (String × String) :=
  (splitOnChar '&' query.toList).filterMap (fun chunk =>
    if chunk = [] then none
    else
      match splitFirst '=' chunk with
      | none => none
      | some p => if p.2 = [] then none else some (String.mk p.1, String.mk p.2))

/-- `parse_qs(...)[k]`-style access: `parse_qs` groups the values of equal
names in order of appearance; `.get(k, [])` returns that list (empty when
the name is absent). -/
def qsGet (pairs : List (String × String)) (k : String) : List String :=
  (pairs.filter (fun p => p.1 == k)).map Prod.snd

/-- Numeric value of a digit list. -/
def digitsVal (cs : List Char) : Nat :=
  cs.foldl (fun a c => a * 10 + (c.toNat - 48)) 0

/-- Python `int(str)`: strips surrounding whitespace, allows one optional
sign, then requires a non-empty digit sequence (digit-group underscores
are not modelled). -/
def pyInt (s : String) : Option Int :=
  let cs := ((s.toList.dropWhile (·.isWhitespace)).reverse.dropWhile
    (·.isWhitespace)).reverse
  match cs with
  | [] => none
  | c :: rest =>
    if c = '-' then
      if rest ≠ [] ∧ rest.all (·.isDigit) then some (-(digitsVal rest : Int))
      else none
    else if c = '+' then
      if rest ≠ [] ∧ rest.all (·.isDigit) then some (digitsVal rest)
      else none
    else if (c :: rest).all (·.isDigit) then some (digitsVal (c :: rest))
    else none

/-- Embedding of the ad-id extraction in `publish_ad` (publish.py
lines 96-98):
`int(urllib.parse.parse_qs(urllib.parse.urlparse(url).query).get("adId", [])[0])`.
An absent `adId` parameter raises `IndexError` on `[0]`; a non-integer
value raises `ValueError` in `int`.  Both are non-timeout exceptions. -/
def extract_ad_id (url : String) : Except PErr Int :=
  match qsGet (parse_qs_pairs (urlQuery url)) "adId" with
  | [] => .error (.other "IndexError: list index out of range")
  | v :: _ =>
    match pyInt v with
    | some n => .ok n
    | none => .error (.other ("ValueError: invalid literal for int: " ++ v))

/-- The workflow steps of the per-ad publish sequence (spec §4.5 names,
mapped onto publish.py): NavigateToForm is the `browser.get(...schritt2...)`
in `publish_ads`; the remaining steps label the statement groups of
`publish_ad` in source order. -/
inductive Step where
  | NavigateToForm
  | SetTitle
  | SetCategory
  | SetPrice
  | SetShipping
  | SetSpecialAttributes
  | SetDescription
  | UploadImages
  | ChallengeCheckpoint
  | Submit
  | AwaitConfirmationUrl
  | ExtractId
  | PersistAd
deriving DecidableEq, Repr

/-- Trace-and-error monad for the publish workflow: threads the list of
steps entered so far and short-circuits on an uncaught exception. -/
def PubM (α : Type) : Type := List Step → List Step × Except PErr α

instance : Monad PubM where
  pure a := fun tr => (tr, .ok a)
  bind m f := fun tr =>
    match m tr with
    | (tr2, .ok a) => f a tr2
    | (tr2, .error e) => (tr2, .error e)

/-- Record that a workflow step has been entered. -/
def emit (s : Step) : PubM Unit := fun tr => (tr ++ [s], .ok ())

/-- Run a browser-primitive outcome inside the workflow. -/
def liftE (r : Except PErr α) : PubM α := fun tr => (tr, r)

/-- `try: body except TimeoutError: handler` — only timeout errors are
caught. -/
def tryTimeout (body : PubM α) (handler : PubM α) : PubM α := fun tr =>
  match body tr with
  | (tr2, .error (.timeout _)) => handler tr2
  | other => other

@[simp] theorem run_bind (m : PubM α) (f : α → PubM β) (tr : List Step) :
    (m >>= f) tr =
      match m tr with
      | (tr2, .ok a) => f a tr2
      | (tr2, .error e) => (tr2, .error e) := rfl

@[simp] theorem run_emit (s : Step) (tr : List Step) :
    emit s tr = (tr ++ [s], .ok ()) := rfl

@[simp] theorem run_liftE (r : Except PErr α) (tr : List Step) :
    liftE r tr = (tr, r) := rfl

@[simp] theorem run_pure (a : α) (tr : List Step) :
    (pure a : PubM α) tr = (tr, .ok a) := rfl

/-- The fields of the `Ad` record consumed by `publish_ad` (ad_model.py),
restricted to what the workflow reads. -/
structure AdM where
  title : String
  description : String
  price : Int
  images : List String
  id : Option Int
deriving DecidableEq, Repr

/-- Browser environment for `publish_ad`: the outcome of each scraper
call site, in source order (publish.py lines 61-108).  The internals of
the helpers `__set_special_attributes`, `__set_shipping` and
`__upload_images` are abstracted into one outcome each; the shipping
resolver's internals are modelled separately (`Shipping`). -/
structure PubEnv where
  inputTitle : Except PErr Unit
  setSpecialAttributes : Except PErr Unit
  inputPrice : Except PErr Unit
  selectPriceType : Except PErr Unit
  setShipping : Except PErr Unit
  execSetDescription : Except PErr Unit
  uploadImages : Except PErr Unit
  detectCaptcha : Except PErr Unit
  clickSubmit : Except PErr Unit
  clickSubmitFallback : Except PErr Unit
  clickImprintGuidance : Except PErr Unit
  checkImageHint : Except PErr Bool
  clickImageHint : Except PErr Unit
  awaitConfirmUrl : Except PErr Unit
  finalUrl : String
  checkApprovalLink : Except PErr Bool
  clickApprovalLink : Except PErr Unit

/-- Embedding of `publish_ad` (publish.py lines 58-108), with the trace
of workflow steps entered.  Note: `__set_category` (lines 139-145) exists
in the source but is never called, `SetSpecialAttributes` happens right
after the title, and there is no persist step — `publish_ad` merely
returns the extracted ad id to its caller. -/
def publish_ad (env : PubEnv) (ad : AdM) : List Step × Except PErr Int :=
  (do
    -- await scraper.web_input(By.ID, "postad-title", ad.title)
    emit .SetTitle
    liftE env.inputTitle
    -- await __set_special_attributes(scraper, ad)
    emit .SetSpecialAttributes
    liftE env.setSpecialAttributes
    -- price input and forced price-type select (lines 65-67)
    emit .SetPrice
    liftE env.inputPrice
    liftE env.selectPriceType
    -- await __set_shipping(scraper, ad)
    emit .SetShipping
    liftE env.setShipping
    -- description injected via web_execute (line 72)
    emit .SetDescription
    liftE env.execSetDescription
    -- await __upload_images(scraper, ad)
    emit .UploadImages
    liftE env.uploadImages
    -- await scraper.detect_captcha()
    emit .ChallengeCheckpoint
    liftE env.detectCaptcha
    -- submit with the issue-40 fallback (lines 79-84)
    emit .Submit
    tryTimeout (liftE env.clickSubmit)
      (do
        liftE env.clickSubmitFallback
        liftE env.clickImprintGuidance)
    -- "publish without image" modal (lines 86-92)
    tryTimeout
      (do
        if ad.images.isEmpty then do
          let shown ← liftE env.checkImageHint
          if shown then liftE env.clickImageHint else pure ()
        else pure ())
      (pure ())
    -- bounded wait for the confirmation URL (line 94)
    emit .AwaitConfirmationUrl
    liftE env.awaitConfirmUrl
    -- ad-id extraction from the query parameter (lines 96-98)
    emit .ExtractId
    let adId ← liftE (extract_ad_id env.finalUrl)
    -- approval message check (lines 100-106)
    tryTimeout
      (do
        let shown ← liftE env.checkApprovalLink
        if shown then liftE env.clickApprovalLink else pure ())
      (pure ())
    pure adId) []

/-- State observable by the run: the bytes of the ad files on disk and
the log of printed messages. -/
structure RunState where
  files : List (String × String)
  log : List String
deriving DecidableEq, Repr

/-- One iteration body of the per-ad loop: `ad.to_ad(config.ad_defaults)`
runs inside the `try`, so a conversion/validation failure is handled like
a publish failure.  `adRes` is the outcome of that conversion. -/
def publish_one (env : PubEnv) (adRes : Except PErr AdM) :
    List Step × Except PErr Int :=
  match adRes with
  | .error e => ([], .error e)
  | .ok ad => publish_ad env ad

/-- The `for ad in ads:` loop of `publish_ads` (publish.py lines 46-52):
navigate to the form in a new tab, try to publish, print any exception,
close the tab, continue with the next ad.  Nothing in the loop writes an
ad file or assigns an ad id. -/
def publish_ads_loop (envs : Nat → PubEnv) :
    List (Except PErr AdM) → Nat → RunState →
      RunState × List (List Step × Except PErr Int)
  | [], _, st => (st, [])
  | a :: rest, i, st =>
    let r := publish_one (envs i) a
    let st2 := match r.2 with
      | .ok _ => st
      | .error e => { st with log := st.log ++ [e.text] }
    let tail := publish_ads_loop envs rest (i + 1) st2
    (tail.1, (Step.NavigateToForm :: r.1, r.2) :: tail.2)

/-- Embedding of `publish_ads` (publish.py lines 35-56): loading produced
`ads` (each entry being the outcome of `load_ad`/`to_ad`); when no ad
files were found a notice is printed and the run ends.  The commented-out
tail of the function performs no action.  The run returns the final state
and the per-ad traces/outcomes. -/
def publish_ads (envs : Nat → PubEnv) (ads : List (Except PErr AdM))
    (st : RunState) : RunState × List (List Step × Except PErr Int) :=
  if ads.isEmpty then
    ({ st with log := st.log ++ ["no ad files found"] }, [])
  else
    publish_ads_loop envs ads 0 st

/-- The steps `publish_ad` actually enters, in source order, on a fully
successful run. -/
def innerSteps : List Step :=
  [.SetTitle, .SetSpecialAttributes, .SetPrice, .SetShipping, .SetDescription,
   .UploadImages, .ChallengeCheckpoint, .Submit, .AwaitConfirmationUrl,
   .ExtractId]

/-- The per-ad step sequence asserted by the spec (§4.5). -/
def claimedSteps : List Step :=
  [.NavigateToForm, .SetTitle, .SetCategory, .SetPrice, .SetShipping,
   .SetSpecialAttributes, .SetDescription, .UploadImages,
   .ChallengeCheckpoint, .Submit, .AwaitConfirmationUrl, .ExtractId,
   .PersistAd]

end Publish

/-- Claim C8: ad-id extraction parses the `adId` query parameter of the
confirmation URL as an integer — the spec's confirmation URL yields
`id == 4711`; a URL whose parsed query has no `adId` parameter fails
extraction with a (fatal, non-timeout) error; and whenever `adId` is
present with an integer first value that value is returned. -/
theorem c8_ad_id_extraction :
    Publish.extract_ad_id
        "https://www.kleinanzeigen.de/p-anzeige-aufgeben-bestaetigung.html?adId=4711" =
      .ok 4711 ∧
    (∀ url, Publish.qsGet (Publish.parse_qs_pairs (Publish.urlQuery url)) "adId" = [] →
      Publish.extract_ad_id url =
        .error (.other "IndexError: list index out of range")) ∧
    (∀ url v vs n,
      Publish.qsGet (Publish.parse_qs_pairs (Publish.urlQuery url)) "adId" = v :: vs →
      Publish.pyInt v = some n →
      Publish.extract_ad_id url = .ok n) := by
  refine ⟨by decide, ?_, ?_⟩
  · intro url h
    unfold Publish.extract_ad_id
    rw [h]
  · intro url v vs n h1 h2
    unfold Publish.extract_ad_id
    rw [h1]
    simp [h2]

/-- Witness for C8: a confirmation URL with no query at all has no `adId`
parameter and extraction raises. -/
theorem c8_ad_id_extraction_witness :
    Publish.extract_ad_id
        "https://www.kleinanzeigen.de/p-anzeige-aufgeben-bestaetigung.html" =
      .error (.other "IndexError: list index out of range") :=
  c8_ad_id_extraction.2.1
    "https://www.kleinanzeigen.de/p-anzeige-aufgeben-bestaetigung.html"
    (by decide)

/-- A browser environment in which every scraper call of `publish_ad`
succeeds and the confirmation URL carries `adId=4711`. -/
def pubEnvOk : Publish.PubEnv :=
  ⟨.ok (), .ok (), .ok (), .ok (), .ok (), .ok (), .ok (), .ok (), .ok (),
   .ok (), .ok (), .ok false, .ok (), .ok (),
   "https://www.kleinanzeigen.de/p-anzeige-aufgeben-bestaetigung.html?adId=4711",
   .ok false, .ok ()⟩

/-- A concrete ad record without images. -/
def adNoImages : Publish.AdM :=
  ⟨"Sample ad title", "Sample description", 10, [], none⟩

/-- Claim C5 (counterexample): on a fully successful run the per-ad step
sequence is NavigateToForm, SetTitle, SetSpecialAttributes, SetPrice,
SetShipping, SetDescription, UploadImages, ChallengeCheckpoint, Submit,
AwaitConfirmationUrl, ExtractId — not the claimed sequence: SetCategory
and PersistAd never occur (`__set_category` is dead code and nothing
persists the id), and SetSpecialAttributes runs directly after SetTitle
rather than after SetShipping. -/
theorem c5_publish_steps_counterexample :
    Publish.publish_ads (fun _ => pubEnvOk) [.ok adNoImages] ⟨[], []⟩ =
      (⟨[], []⟩,
       [(Publish.Step.NavigateToForm :: Publish.innerSteps, .ok 4711)]) ∧
    Publish.Step.NavigateToForm :: Publish.innerSteps ≠ Publish.claimedSteps ∧
    Publish.Step.SetCategory ∉ Publish.Step.NavigateToForm :: Publish.innerSteps ∧
    Publish.Step.PersistAd ∉ Publish.Step.NavigateToForm :: Publish.innerSteps := by
  refine ⟨by decide, by decide, by decide, by decide⟩

/-- Claim C5 (amended): for every ad and every browser environment whose
call sites all succeed (and whose confirmation URL yields an integer ad
id), `publish_ad` performs exactly the steps SetTitle,
SetSpecialAttributes, SetPrice, SetShipping, SetDescription,
UploadImages, ChallengeCheckpoint, Submit, AwaitConfirmationUrl,
ExtractId in this order, and returns the extracted id; SetCategory and
PersistAd are not part of the sequence (NavigateToForm precedes the
sequence in the `publish_ads` loop). -/
theorem c5_publish_steps_amended (env : Publish.PubEnv) (ad : Publish.AdM)
    (n : Int)
    (h1 : env.inputTitle = .ok ())
    (h2 : env.setSpecialAttributes = .ok ())
    (h3 : env.inputPrice = .ok ())
    (h4 : env.selectPriceType = .ok ())
    (h5 : env.setShipping = .ok ())
    (h6 : env.execSetDescription = .ok ())
    (h7 : env.uploadImages = .ok ())
    (h8 : env.detectCaptcha = .ok ())
    (h9 : env.clickSubmit = .ok ())
    (h10 : env.checkImageHint = .ok false)
    (h11 : env.awaitConfirmUrl = .ok ())
    (h12 : Publish.extract_ad_id env.finalUrl = .ok n)
    (h13 : env.checkApprovalLink = .ok false) :
    Publish.publish_ad env ad = (Publish.innerSteps, .ok n) := by
  unfold Publish.publish_ad
  simp only [Publish.run_bind, Publish.run_emit, Publish.run_liftE,
    Publish.run_pure, Publish.tryTimeout, h1, h2, h3, h4, h5, h6, h7, h8, h9,
    h10, h11, h12, h13]
  cases himg : ad.images.isEmpty <;>
    simp [himg, Publish.innerSteps, Publish.emit, Publish.liftE, Publish.tryTimeout]

/-- Witness for the amended C5 theorem: with the all-success environment
and a concrete ad, `publish_ad` performs exactly the actual step list and
returns id 4711. -/
theorem c5_publish_steps_amended_witness :
    Publish.publish_ad pubEnvOk adNoImages = (Publish.innerSteps, .ok 4711) :=
  c5_publish_steps_amended pubEnvOk adNoImages 4711 rfl rfl rfl rfl rfl rfl
    rfl rfl rfl rfl rfl (by decide) rfl

namespace Publish

/-- Invariants of the per-ad loop of `publish_ads`: ad files are never
written, every ad produces exactly one result (the loop never stops
early), the log only grows, and every per-ad failure's message is in the
final log. -/
theorem publish_ads_loop_spec (envs : Nat → PubEnv) :
    ∀ (ads : List (Except PErr AdM)) (i : Nat) (st : RunState),
      (publish_ads_loop envs ads i st).1.files = st.files ∧
      (publish_ads_loop envs ads i st).2.length = ads.length ∧
      (∀ x ∈ st.log, x ∈ (publish_ads_loop envs ads i st).1.log) ∧
      (∀ r ∈ (publish_ads_loop envs ads i st).2, ∀ e, r.2 = .error e →
        e.text ∈ (publish_ads_loop envs ads i st).1.log) := by
  intro ads
  induction ads with
  | nil =>
    intro i st
    refine ⟨rfl, rfl, fun x hx => hx, ?_⟩
    intro r hr
    simp [publish_ads_loop] at hr
  | cons a rest ih =>
    intro i st
    cases hres : (publish_one (envs i) a).2 with
    | ok v =>
      simp only [publish_ads_loop, hres]
      obtain ⟨j1, j2, j3, j4⟩ := ih (i + 1) st
      refine ⟨j1, by simp [j2], j3, ?_⟩
      intro r hr e her
      rcases List.mem_cons.mp hr with h | h
      · subst h; simp at her
      · exact j4 r h e her
    | error e0 =>
      simp only [publish_ads_loop, hres]
      obtain ⟨j1, j2, j3, j4⟩ :=
        ih (i + 1) { st with log := st.log ++ [e0.text] }
      refine ⟨j1, by simp [j2], ?_, ?_⟩
      · intro x hx
        exact j3 x (by simp [hx])
      · intro r hr e her
        rcases List.mem_cons.mp hr with h | h
        · subst h
          simp only at her
          rw [show e = e0 by exact (Except.error.inj her).symm]
          exact j3 e0.text (by simp)
        · exact j4 r h e her

end Publish

/-- Claim C2 (amended): there is no persist step — for every environment,
ad list and initial state, the publish run never writes any ad file (the
file map is unchanged even for fully successful ads, and no ad's `id` is
ever assigned), every ad is attempted (one result per ad, so the run
advances past failures), and every per-ad failure's exception message is
caught and logged. -/
theorem c2_publish_persist_amended (envs : Nat → Publish.PubEnv)
    (ads : List (Except Publish.PErr Publish.AdM)) (st : Publish.RunState) :
    (Publish.publish_ads envs ads st).1.files = st.files ∧
    (Publish.publish_ads envs ads st).2.length = ads.length ∧
    (∀ r ∈ (Publish.publish_ads envs ads st).2, ∀ e, r.2 = .error e →
      Publish.PErr.text e ∈ (Publish.publish_ads envs ads st).1.log) := by
  unfold Publish.publish_ads
  cases hempty : ads.isEmpty with
  | true =>
    rw [List.isEmpty_iff] at hempty
    subst hempty
    refine ⟨rfl, rfl, ?_⟩
    intro r hr
    simp at hr
  | false =>
    simp only [Bool.false_eq_true, if_false]
    obtain ⟨j1, j2, j3, j4⟩ := Publish.publish_ads_loop_spec envs ads 0 st
    exact ⟨j1, j2, j4⟩

/-- Claim C2 (counterexample): a fully successful publish of one ad
(extracted id 4711).  The claim says that on success the ad's id field is
set and its source file is rewritten with the new id; in the code the
returned id is discarded by `publish_ads`, the ad record keeps `id =
None` and the file bytes are untouched (the run state is returned exactly
as it was). -/
theorem c2_publish_persist_counterexample :
    Publish.publish_ads (fun _ => pubEnvOk) [.ok adNoImages]
        ⟨[("ad_sample.json", "original-bytes")], []⟩ =
      (⟨[("ad_sample.json", "original-bytes")], []⟩,
       [(Publish.Step.NavigateToForm :: Publish.innerSteps, .ok 4711)]) ∧
    adNoImages.id = none ∧
    Publish.Step.PersistAd ∉ Publish.Step.NavigateToForm :: Publish.innerSteps := by
  refine ⟨by decide, rfl, by decide⟩

/-- A browser environment whose very first `publish_ad` call site raises a
non-timeout exception. -/
def pubEnvFail : Publish.PubEnv :=
  ⟨.error (.other "boom"), .ok (), .ok (), .ok (), .ok (), .ok (), .ok (),
   .ok (), .ok (), .ok (), .ok (), .ok false, .ok (), .ok (),
   "https://www.kleinanzeigen.de/p-anzeige-aufgeben-bestaetigung.html?adId=4711",
   .ok false, .ok ()⟩

/-- Witness for the amended C2 theorem: a failing ad leaves the files
unchanged and its exception message is logged. -/
theorem c2_publish_persist_amended_witness :
    (Publish.publish_ads (fun _ => pubEnvFail) [.ok adNoImages]
        ⟨[("ad_sample.json", "original-bytes")], []⟩).1.files =
      [("ad_sample.json", "original-bytes")] ∧
    "boom" ∈ (Publish.publish_ads (fun _ => pubEnvFail) [.ok adNoImages]
        ⟨[("ad_sample.json", "original-bytes")], []⟩).1.log := by
  have h := c2_publish_persist_amended (fun _ => pubEnvFail) [.ok adNoImages]
    ⟨[("ad_sample.json", "original-bytes")], []⟩
  refine ⟨h.1, ?_⟩
  have hm := h.2.2
    ([Publish.Step.NavigateToForm, Publish.Step.SetTitle], .error (.other "boom"))
    (by decide) (.other "boom") rfl
  exact hm

namespace Dicts

mutual
/-- JSON-like values as handled by `apply_defaults` (dicts.py): Python
scalars, lists and (string-keyed, insertion-ordered) dicts.  A mutually
inductive presentation keeps all recursion structural. -/
inductive JVal where
  | null
  | bool (b : Bool)
  | int (n : Int)
  | str (s : String)
  | arr (xs : JArr)
  | obj (fs : JObj)
inductive JArr where
  | anil
  | acons (v : JVal) (rest : JArr)
inductive JObj where
  | onil
  | ocons (k : String) (v : JVal) (rest : JObj)
end

/-- `key in target` / `target[key]`: first matching entry. -/
def JObj.lookup : JObj → String → Option JVal
  | .onil, _ => none
  | .ocons k v rest, key => if k = key then some v else rest.lookup key

/-- `key in target` as a boolean. -/
def JObj.hasKey (o : JObj) (key : String) : Bool :=
  (o.lookup key).isSome

/-- `target[key] = nv` for a key already present (updates the first
matching entry, keeping insertion order — as a Python dict does). -/
def JObj.setKey : JObj → String → JVal → JObj
  | .onil, _, _ => .onil
  | .ocons k v rest, key, nv =>
    if k = key then .ocons k nv rest else .ocons k v (rest.setKey key nv)

/-- `target[key] = nv` for a fresh key (a Python dict appends it at the
end of the insertion order). -/
def JObj.appendKey : JObj → String → JVal → JObj
  | .onil, key, nv => .ocons key nv .onil
  | .ocons k v rest, key, nv => .ocons k v (rest.appendKey key nv)

/-- `isinstance(target[key], dict) and isinstance(default_value, dict)`:
the pair of dict payloads when both values are dicts. -/
def bothObj : JVal → JVal → Option (JObj × JObj)
  | .obj a, .obj b => some (a, b)
  | _, _ => none

/-- The ignore predicate of the ad merge
(`lambda k, _: k == "description"`, ad_model.py line 102). -/
def adIgnore (k : String) (_v : JVal) : Bool := k == "description"

/-- The override predicate of the ad merge
(`lambda _, v: not isinstance(v, list) and v in {None, ""}`, ad_model.py
line 103). -/
def adOverride (_k : String) (v : JVal) : Bool :=
  match v with
  | .arr _ => false
  | .null => true
  | .str s => s == ""
  | _ => false

mutual
/-- Embedding of `apply_defaults` (dicts.py lines 20-57): the loop
`for key, default_value in defaults.items():` threading the mutated
target.  `copy.deepcopy` is the identity on values. -/
def apply_defaults (ig ov : String → JVal → Bool) (target : JObj)
    (d : JObj) : JObj :=
  match d with
  | .onil => target
  | .ocons k dv rest =>
    apply_defaults ig ov (applyEntry ig ov target k dv) rest
termination_by sizeOf d

/-- The body of the `apply_defaults` loop for a single defaults entry
`(k, dv)`. -/
def applyEntry (ig ov : String → JVal → Bool) (target : JObj) (k : String)
    (dv : JVal) : JObj :=
  match target.lookup k with
  | some tv =>
    match tv, dv with
    | .obj tfs, .obj dfs =>
      -- both values are dicts: recursive merge in place, no copy
      target.setKey k (.obj (apply_defaults ig ov tfs dfs))
    | _, _ => if ov k tv then target.setKey k dv else target
  | none => if ig k dv then target else target.appendKey k dv
termination_by sizeOf dv
end

/-- Characterization of `applyEntry` through `bothObj`, convenient for
case analysis. -/
theorem applyEntry_eq (ig ov : String → JVal → Bool) (t : JObj) (k : String)
    (dv : JVal) :
    applyEntry ig ov t k dv =
      match t.lookup k with
      | some tv =>
        match bothObj tv dv with
        | some p => t.setKey k (.obj (apply_defaults ig ov p.1 p.2))
        | none => if ov k tv then t.setKey k dv else t
      | none => if ig k dv then t else t.appendKey k dv := by
  unfold applyEntry
  cases t.lookup k with
  | none => rfl
  | some tv => cases tv <;> cases dv <;> rfl

mutual
/-- Well-formedness of a value: every dict nested in it has unique keys
(a Python dict invariant).  Lists are never merged into, so their
elements are unconstrained. -/
def valWF : JVal → Bool
  | .obj fs => objWF fs
  | _ => true

/-- Well-formedness of a dict: unique keys at this level and well-formed
values. -/
def objWF : JObj → Bool
  | .onil => true
  | .ocons k v rest => !(rest.hasKey k) && valWF v && objWF rest
end

theorem objWF_cons (k : String) (v : JVal) (rest : JObj) :
    objWF (.ocons k v rest) = true ↔
      rest.hasKey k = false ∧ valWF v = true ∧ objWF rest = true := by
  simp [objWF, Bool.and_eq_true, Bool.not_eq_true', and_assoc]

theorem setKey_cons_ne (k key : String) (v nv : JVal) (t : JObj)
    (h : k ≠ key) :
    (JObj.ocons k v t).setKey key nv = .ocons k v (t.setKey key nv) := by
  simp [JObj.setKey, h]

theorem appendKey_cons (k key : String) (v nv : JVal) (t : JObj) :
    (JObj.ocons k v t).appendKey key nv = .ocons k v (t.appendKey key nv) := rfl

theorem lookup_setKey_self : ∀ (t : JObj) (k : String) (v0 nv : JVal),
    t.lookup k = some v0 → (t.setKey k nv).lookup k = some nv
  | .onil, k, v0, nv, h => by simp [JObj.lookup] at h
  | .ocons k1 v1 rest, k, v0, nv, h => by
    by_cases he : k1 = k
    · subst he
      simp [JObj.setKey, JObj.lookup]
    · simp only [JObj.lookup, if_neg he] at h
      simp only [JObj.setKey, if_neg he, JObj.lookup]
      exact lookup_setKey_self rest k v0 nv h

theorem setKey_lookup_self : ∀ (t : JObj) (k : String) (v : JVal),
    t.lookup k = some v → t.setKey k v = t
  | .onil, _, _, _ => rfl
  | .ocons k1 v1 rest, k, v, h => by
    by_cases he : k1 = k
    · subst he
      have hv : v1 = v := by simpa [JObj.lookup] using h
      simp [JObj.setKey, hv]
    · simp only [JObj.lookup, if_neg he] at h
      simp only [JObj.setKey, if_neg he]
      rw [setKey_lookup_self rest k v h]

theorem lookup_setKey_ne : ∀ (t : JObj) (k key : String) (nv : JVal),
    k ≠ key → (t.setKey k nv).lookup key = t.lookup key
  | .onil, _, _, _, _ => rfl
  | .ocons k1 v1 rest, k, key, nv, h => by
    by_cases he : k1 = k
    · subst he
      simp [JObj.setKey, JObj.lookup, h]
    · simp only [JObj.setKey, if_neg he, JObj.lookup]
      rw [lookup_setKey_ne rest k key nv h]

theorem lookup_appendKey_ne : ∀ (t : JObj) (k key : String) (nv : JVal),
    k ≠ key → (t.appendKey k nv).lookup key = t.lookup key
  | .onil, k, key, nv, h => by simp [JObj.appendKey, JObj.lookup, h]
  | .ocons k1 v1 rest, k, key, nv, h => by
    simp only [JObj.appendKey, JObj.lookup]
    rw [lookup_appendKey_ne rest k key nv h]

theorem lookup_appendKey_self : ∀ (t : JObj) (k : String) (nv : JVal),
    t.lookup k = none → (t.appendKey k nv).lookup k = some nv
  | .onil, k, nv, _ => by simp [JObj.appendKey, JObj.lookup]
  | .ocons k1 v1 rest, k, nv, h => by
    by_cases he : k1 = k
    · subst he; simp [JObj.lookup] at h
    · simp only [JObj.lookup, if_neg he] at h
      simp only [JObj.appendKey, JObj.lookup, if_neg he]
      exact lookup_appendKey_self rest k nv h

theorem bothObj_some (a b : JVal) (p : JObj × JObj) (h : bothObj a b = some p) :
    a = .obj p.1 ∧ b = .obj p.2 := by
  obtain ⟨p1, p2⟩ := p
  cases a <;> cases b <;> simp_all [bothObj]

theorem applyEntry_lookup_ne (ig ov : String → JVal → Bool) (t : JObj)
    (k2 : String) (dv : JVal) (key : String) (h : k2 ≠ key) :
    (applyEntry ig ov t k2 dv).lookup key = t.lookup key := by
  rw [applyEntry_eq]
  cases hl : t.lookup k2 with
  | none =>
    by_cases hig : ig k2 dv
    · simp [hig]
    · simp [hig, lookup_appendKey_ne t k2 key dv h]
  | some tv =>
    cases hb : bothObj tv dv with
    | some p => simp [hb, lookup_setKey_ne t k2 key _ h]
    | none =>
      by_cases hov : ov k2 tv
      · simp [hb, hov, lookup_setKey_ne t k2 key dv h]
      · simp [hb, hov]

theorem applyEntry_cons_ne (ig ov : String → JVal → Bool) (k : String)
    (v : JVal) (t : JObj) (k2 : String) (dv : JVal) (h : k ≠ k2) :
    applyEntry ig ov (.ocons k v t) k2 dv = .ocons k v (applyEntry ig ov t k2 dv) := by
  rw [applyEntry_eq, applyEntry_eq]
  rw [show (JObj.ocons k v t).lookup k2 = t.lookup k2 by simp [JObj.lookup, h]]
  cases hl : t.lookup k2 with
  | none =>
    by_cases hig : ig k2 dv
    · simp [hig]
    · simp [hig, appendKey_cons]
  | some tv =>
    cases hb : bothObj tv dv with
    | some p => simp [hb, setKey_cons_ne k k2 v _ t h]
    | none =>
      by_cases hov : ov k2 tv
      · simp [hb, hov, setKey_cons_ne k k2 v dv t h]
      · simp [hb, hov]

theorem hasKey_cons_false (k2 key : String) (dv : JVal) (rest : JObj)
    (h : (JObj.ocons k2 dv rest).hasKey key = false) :
    k2 ≠ key ∧ rest.hasKey key = false := by
  by_cases he : k2 = key
  · exfalso
    rw [JObj.hasKey] at h
    simp [JObj.lookup, he] at h
  · refine ⟨he, ?_⟩
    rw [JObj.hasKey] at h ⊢
    simpa [JObj.lookup, he] using h

theorem apply_defaults_lookup_notMem (ig ov : String → JVal → Bool) :
    ∀ (d : JObj) (t : JObj) (key : String), d.hasKey key = false →
      (apply_defaults ig ov t d).lookup key = t.lookup key
  | .onil, t, key, _ => by simp [apply_defaults]
  | .ocons k2 dv rest, t, key, h => by
    obtain ⟨hne, hrest⟩ := hasKey_cons_false k2 key dv rest h
    simp only [apply_defaults]
    rw [apply_defaults_lookup_notMem ig ov rest (applyEntry ig ov t k2 dv) key hrest]
    exact applyEntry_lookup_ne ig ov t k2 dv key hne

theorem apply_defaults_cons_notMem (ig ov : String → JVal → Bool) :
    ∀ (d : JObj) (k : String) (v : JVal) (t : JObj), d.hasKey k = false →
      apply_defaults ig ov (.ocons k v t) d = .ocons k v (apply_defaults ig ov t d)
  | .onil, k, v, t, _ => by simp [apply_defaults]
  | .ocons k2 dv rest, k, v, t, h => by
    obtain ⟨hne, hrest⟩ := hasKey_cons_false k2 k dv rest h
    simp only [apply_defaults]
    rw [applyEntry_cons_ne ig ov k v t k2 dv (fun hc => hne hc.symm)]
    exact apply_defaults_cons_notMem ig ov rest k v (applyEntry ig ov t k2 dv) hrest

/-- If the value already stored under `k` is exactly the default value
(and every dict self-merges to itself), the entry step is a no-op. -/
theorem applyEntry_self_of (ig ov : String → JVal → Bool) (s : JObj)
    (k : String) (dv : JVal)
    (hself : ∀ dfs, dv = .obj dfs → apply_defaults ig ov dfs dfs = dfs)
    (hlk : s.lookup k = some dv) :
    applyEntry ig ov s k dv = s := by
  rw [applyEntry_eq, hlk]
  cases dv with
  | obj dfs =>
    simp only [bothObj]
    rw [hself dfs rfl]
    exact setKey_lookup_self s k _ hlk
  | null =>
    simp only [bothObj]
    split
    · exact setKey_lookup_self s k _ hlk
    · rfl
  | bool b =>
    simp only [bothObj]
    split
    · exact setKey_lookup_self s k _ hlk
    · rfl
  | int n =>
    simp only [bothObj]
    split
    · exact setKey_lookup_self s k _ hlk
    · rfl
  | str st =>
    simp only [bothObj]
    split
    · exact setKey_lookup_self s k _ hlk
    · rfl
  | arr xs =>
    simp only [bothObj]
    split
    · exact setKey_lookup_self s k _ hlk
    · rfl

/-- Key stability: after one entry step for `(k, dv)` followed by the
merge of the remaining defaults (which do not mention `k`), repeating the
entry step for `(k, dv)` is a no-op. -/
theorem applyEntry_stable (ig ov : String → JVal → Bool) (t : JObj)
    (k : String) (dv : JVal) (rest : JObj)
    (h1 : rest.hasKey k = false)
    (hself : ∀ dfs, dv = .obj dfs → apply_defaults ig ov dfs dfs = dfs)
    (hsub : ∀ dfs tfs, dv = .obj dfs → t.lookup k = some (.obj tfs) →
      apply_defaults ig ov (apply_defaults ig ov tfs dfs) dfs =
        apply_defaults ig ov tfs dfs) :
    applyEntry ig ov (apply_defaults ig ov (applyEntry ig ov t k dv) rest) k dv =
      apply_defaults ig ov (applyEntry ig ov t k dv) rest := by
  have hs : (apply_defaults ig ov (applyEntry ig ov t k dv) rest).lookup k =
      (applyEntry ig ov t k dv).lookup k :=
    apply_defaults_lookup_notMem ig ov rest (applyEntry ig ov t k dv) k h1
  cases hl : t.lookup k with
  | none =>
    by_cases hig : ig k dv
    · have ht1 : applyEntry ig ov t k dv = t := by
        rw [applyEntry_eq, hl]
        simp [hig]
      rw [ht1] at hs ⊢
      rw [applyEntry_eq, hs, hl]
      simp [hig]
    · have hlt1 : (applyEntry ig ov t k dv).lookup k = some dv := by
        rw [applyEntry_eq, hl]
        simp only [hig, if_false, Bool.false_eq_true]
        exact lookup_appendKey_self t k dv hl
      exact applyEntry_self_of ig ov _ k dv hself (hs.trans hlt1)
  | some tv =>
    cases hb : bothObj tv dv with
    | some p =>
      obtain ⟨htv, hdv⟩ := bothObj_some tv dv p hb
      have ht1 : applyEntry ig ov t k dv =
          t.setKey k (.obj (apply_defaults ig ov p.1 p.2)) := by
        rw [applyEntry_eq, hl]
        simp [hb]
      have hlt1 : (applyEntry ig ov t k dv).lookup k =
          some (.obj (apply_defaults ig ov p.1 p.2)) := by
        rw [ht1]
        exact lookup_setKey_self t k tv _ hl
      have hlook : (apply_defaults ig ov (applyEntry ig ov t k dv) rest).lookup k =
          some (.obj (apply_defaults ig ov p.1 p.2)) := hs.trans hlt1
      rw [applyEntry_eq, hlook, hdv]
      simp only [bothObj]
      rw [hsub p.2 p.1 hdv (htv ▸ hl)]
      rw [hdv] at hlook
      exact setKey_lookup_self _ k _ hlook
    | none =>
      by_cases hov : ov k tv
      · have hlt1 : (applyEntry ig ov t k dv).lookup k = some dv := by
          rw [applyEntry_eq, hl]
          simp only [hb, hov, if_true]
          exact lookup_setKey_self t k tv dv hl
        exact applyEntry_self_of ig ov _ k dv hself (hs.trans hlt1)
      · have ht1 : applyEntry ig ov t k dv = t := by
          rw [applyEntry_eq, hl]
          simp [hb, hov]
        rw [ht1] at hs ⊢
        rw [applyEntry_eq, hs, hl]
        simp [hb, hov]

/-- Merging a well-formed dict into itself is the identity. -/
theorem apply_defaults_self (ig ov : String → JVal → Bool) :
    ∀ (o : JObj), objWF o = true → apply_defaults ig ov o o = o
  | .onil, _ => by simp [apply_defaults]
  | .ocons k v rest, h => by
    obtain ⟨h1, h2, h3⟩ := (objWF_cons k v rest).mp h
    simp only [apply_defaults]
    rw [applyEntry_self_of ig ov (JObj.ocons k v rest) k v
      (fun dfs hdv => apply_defaults_self ig ov dfs
        (by rw [hdv] at h2; simpa [valWF] using h2))
      (by simp [JObj.lookup])]
    rw [apply_defaults_cons_notMem ig ov rest k v rest h1]
    rw [apply_defaults_self ig ov rest h3]
termination_by o => sizeOf o
decreasing_by
  all_goals simp_wf
  all_goals try subst hdv
  all_goals simp
  all_goals omega

/-- Idempotence of `apply_defaults` for a well-formed defaults dict and
arbitrary ignore/override predicates. -/
theorem apply_defaults_idem_aux (ig ov : String → JVal → Bool) :
    ∀ (d : JObj) (t : JObj), objWF d = true →
      apply_defaults ig ov (apply_defaults ig ov t d) d =
        apply_defaults ig ov t d
  | .onil, t, _ => by simp [apply_defaults]
  | .ocons k dv rest, t, h => by
    obtain ⟨h1, h2, h3⟩ := (objWF_cons k dv rest).mp h
    simp only [apply_defaults]
    rw [applyEntry_stable ig ov t k dv rest h1
      (fun dfs hdv => apply_defaults_self ig ov dfs
        (by rw [hdv] at h2; simpa [valWF] using h2))
      (fun dfs tfs hdv _ => apply_defaults_idem_aux ig ov dfs tfs
        (by rw [hdv] at h2; simpa [valWF] using h2))]
    exact apply_defaults_idem_aux ig ov rest (applyEntry ig ov t k dv) h3
termination_by d => sizeOf d
decreasing_by
  all_goals simp_wf
  all_goals try subst hdv
  all_goals simp
  all_goals omega

end Dicts

/-- Claim C9: the recursive default-merge with the ignore/override
predicates used by the ad merge (`ignore` skips the legacy `description`
key, `override` fires on `None`/`""` non-list values) is idempotent: for
every target dict and every well-formed defaults dict (unique keys at
every nesting level, as Python dicts guarantee), merging twice equals
merging once. -/
theorem c9_apply_defaults_idempotent (target defaults : Dicts.JObj)
    (h : Dicts.objWF defaults = true) :
    Dicts.apply_defaults Dicts.adIgnore Dicts.adOverride
        (Dicts.apply_defaults Dicts.adIgnore Dicts.adOverride target defaults)
        defaults =
      Dicts.apply_defaults Dicts.adIgnore Dicts.adOverride target defaults :=
  Dicts.apply_defaults_idem_aux Dicts.adIgnore Dicts.adOverride defaults target h

/-- Concrete defaults dict for the C9 witness (shaped like the ad
defaults: scalar fields plus one nested dict). -/
def c9Defaults : Dicts.JObj :=
  .ocons "price_type" (.str "NEGOTIABLE")
    (.ocons "shipping" (.obj (.ocons "kind" (.str "SHIPPING") .onil))
      (.ocons "description" (.str "legacy") .onil))

/-- Concrete target dict for the C9 witness: one null field to override,
one populated field, one nested dict. -/
def c9Target : Dicts.JObj :=
  .ocons "title" (.str "My ad")
    (.ocons "price_type" .null
      (.ocons "shipping" (.obj (.ocons "cost" (.int 3) .onil)) .onil))

/-- Witness for C9 at a concrete target/defaults pair. -/
theorem c9_apply_defaults_idempotent_witness :
    Dicts.apply_defaults Dicts.adIgnore Dicts.adOverride
        (Dicts.apply_defaults Dicts.adIgnore Dicts.adOverride c9Target c9Defaults)
        c9Defaults =
      Dicts.apply_defaults Dicts.adIgnore Dicts.adOverride c9Target c9Defaults :=
  c9_apply_defaults_idempotent c9Target c9Defaults (by
    simp [c9Defaults, Dicts.objWF, Dicts.valWF, Dicts.JObj.hasKey, Dicts.JObj.lookup])

namespace HeapD

/-- Python values for the heap-level model of `apply_defaults`:
immutable scalars and references to heap-allocated mutable objects. -/
inductive HVal where
  | null
  | bool (b : Bool)
  | int (n : Int)
  | str (s : String)
  | ref (a : Nat)
deriving DecidableEq, Repr

/-- Heap objects: dicts and lists are the mutable containers `apply_defaults`
deals with. -/
inductive HObj where
  | dict (entries : List (String × HVal))
  | arr (elems : List HVal)
deriving DecidableEq, Repr

/-- A heap: an association list of allocated objects plus the
next-fresh-address counter. -/
structure Heap where
  mem : List (Nat × HObj)
  next : Nat
deriving DecidableEq, Repr

/-- First-occurrence association lookup in the heap store. -/
def memLookup : List (Nat × HObj) → Nat → Option HObj
  | [], _ => none
  | (a0, o0) :: rest, a => if a0 = a then some o0 else memLookup rest a

def Heap.lookup (h : Heap) (a : Nat) : Option HObj :=
  memLookup h.mem a

def Heap.dom (h : Heap) : List Nat :=
  h.mem.map Prod.fst

/-- In-place mutation of the object at address `a`. -/
def updateEntries : List (Nat × HObj) → Nat → HObj → List (Nat × HObj)
  | [], _, _ => []
  | (a0, o0) :: rest, a, o =>
    if a0 = a then (a0, o) :: rest else (a0, o0) :: updateEntries rest a o

def Heap.update (h : Heap) (a : Nat) (o : HObj) : Heap :=
  ⟨updateEntries h.mem a o, h.next⟩

/-- Allocation of freshly copied objects (their addresses were drawn from
the counter, the new counter value is `nxt`). -/
def Heap.addMany (h : Heap) (news : List (Nat × HObj)) (nxt : Nat) : Heap :=
  ⟨h.mem ++ news, nxt⟩

/-- Addresses directly referenced by a value. -/
def HVal.refsV : HVal → List Nat
  | .ref a => [a]
  | _ => []

/-- Addresses directly referenced by a heap object. -/
def HObj.refs : HObj → List Nat
  | .dict es => es.foldr (fun kv acc => kv.2.refsV ++ acc) []
  | .arr xs => xs.foldr (fun v acc => v.refsV ++ acc) []

/-- Heap reachability from a root address. -/
inductive Reach (h : Heap) (root : Nat) : Nat → Prop where
  | base : Reach h root root
  | step {a b : Nat} {o : HObj} :
      Reach h root a → h.lookup a = some o → b ∈ o.refs → Reach h root b

/-- First-occurrence association lookup among a dict's entries
(`key in target` / `target[key]`). -/
def entriesLookup : List (String × HVal) → String → Option HVal
  | [], _ => none
  | (k0, v0) :: rest, k => if k0 = k then some v0 else entriesLookup rest k

/-- `target[key] = nv` for a present key. -/
def setEntry : List (String × HVal) → String → HVal → List (String × HVal)
  | [], _, _ => []
  | (k0, v0) :: rest, k, nv =>
    if k0 = k then (k0, nv) :: rest else (k0, v0) :: setEntry rest k nv

/-- `isinstance(tv, dict) and isinstance(dv, dict)` on the heap: the two
dict addresses when both values reference dicts. -/
def isDictPair (h : Heap) : HVal → HVal → Option (Nat × Nat)
  | .ref a, .ref b =>
    match h.lookup a, h.lookup b with
    | some (.dict _), some (.dict _) => some (a, b)
    | _, _ => none
  | _, _ => none

mutual
/-- `copy.deepcopy` of a value: reads the (unmodified) heap `h`,
allocating fresh addresses from `nxt`; returns the copied value, the
freshly allocated objects and the new counter.  Tree-copying — the memo
that lets Python`s deepcopy preserve internal sharing/cycles is not
modelled, which does not affect which OLD addresses the copy references
(none).  `fuel` bounds the recursion (cyclic structures). -/
def deepcopyVal (fuel : Nat) (h : Heap) (v : HVal) (nxt : Nat) :
    Option (HVal × List (Nat × HObj) × Nat) :=
  match fuel with
  | 0 => none
  | fuel + 1 =>
    match v with
    | .ref a =>
      match h.lookup a with
      | some (.dict es) =>
        match deepcopyEntries fuel h es nxt with
        | some (es2, news, nxt2) =>
          some (.ref nxt2, news ++ [(nxt2, .dict es2)], nxt2 + 1)
        | none => none
      | some (.arr xs) =>
        match deepcopyElems fuel h xs nxt with
        | some (xs2, news, nxt2) =>
          some (.ref nxt2, news ++ [(nxt2, .arr xs2)], nxt2 + 1)
        | none => none
      | none => none
    | _ => some (v, [], nxt)

/-- Deepcopy of a dict's entry list. -/
def deepcopyEntries (fuel : Nat) (h : Heap) (es : List (String × HVal))
    (nxt : Nat) : Option (List (String × HVal) × List (Nat × HObj) × Nat) :=
  match fuel with
  | 0 => none
  | fuel + 1 =>
    match es with
    | [] => some ([], [], nxt)
    | (k, v) :: rest =>
      match deepcopyVal fuel h v nxt with
      | some (v2, news1, nxt1) =>
        match deepcopyEntries fuel h rest nxt1 with
        | some (rest2, news2, nxt2) => some ((k, v2) :: rest2, news1 ++ news2, nxt2)
        | none => none
      | none => none

/-- Deepcopy of a list's elements. -/
def deepcopyElems (fuel : Nat) (h : Heap) (xs : List HVal) (nxt : Nat) :
    Option (List HVal × List (Nat × HObj) × Nat) :=
  match fuel with
  | 0 => none
  | fuel + 1 =>
    match xs with
    | [] => some ([], [], nxt)
    | v :: rest =>
      match deepcopyVal fuel h v nxt with
      | some (v2, news1, nxt1) =>
        match deepcopyElems fuel h rest nxt1 with
        | some (rest2, news2, nxt2) => some (v2 :: rest2, news1 ++ news2, nxt2)
        | none => none
      | none => none
end

mutual
/-- Heap-level embedding of `apply_defaults(target, defaults, ignore,
override)` (dicts.py lines 20-57): `ta`/`da` are the addresses of the
target and defaults dicts.  The defaults entry list is read once (the
`defaults.items()` iteration; under the claims' no-aliasing precondition
the defaults dict is never mutated, so the snapshot is the live view);
the target dict is re-read at every iteration, as Python's live
`target[key]` accesses are.  The predicates may inspect the heap
(`isinstance(v, list)` does).  `fuel` bounds the dict-dict recursion
depth; `none` models a non-terminating/failing run. -/
def applyDefaultsH (ig ov : String → HVal → Heap → Bool) (fuel : Nat)
    (h : Heap) (ta da : Nat) : Option Heap :=
  match fuel with
  | 0 => none
  | fuel + 1 =>
    match h.lookup da with
    | some (.dict des) => applyEntriesH ig ov fuel h ta des
    | _ => none

/-- The `for key, default_value in defaults.items():` loop over the
remaining defaults entries. -/
def applyEntriesH (ig ov : String → HVal → Heap → Bool) (fuel : Nat)
    (h : Heap) (ta : Nat) (des : List (String × HVal)) : Option Heap :=
  match fuel with
  | 0 => none
  | fuel + 1 =>
    match des with
    | [] => some h
    | (k, dv) :: rest =>
      match h.lookup ta with
      | some (.dict tes) =>
        match entriesLookup tes k with
        | some tv =>
          match isDictPair h tv dv with
          | some p =>
            -- both dicts: recursive in-place merge, no copy
            match applyDefaultsH ig ov fuel h p.1 p.2 with
            | some h2 => applyEntriesH ig ov fuel h2 ta rest
            | none => none
          | none =>
            if ov k tv h then
              -- target[key] = copy.deepcopy(default_value)
              match deepcopyVal fuel h dv h.next with
              | some (dv2, news, nxt2) =>
                applyEntriesH ig ov fuel
                  ((h.addMany news nxt2).update ta (.dict (setEntry tes k dv2)))
                  ta rest
              | none => none
            else applyEntriesH ig ov fuel h ta rest
        | none =>
          if ig k dv h then applyEntriesH ig ov fuel h ta rest
          else
            -- fresh key: target[key] = copy.deepcopy(default_value)
            match deepcopyVal fuel h dv h.next with
            | some (dv2, news, nxt2) =>
              applyEntriesH ig ov fuel
                ((h.addMany news nxt2).update ta (.dict (tes ++ [(k, dv2)])))
                ta rest
            | none => none
      | _ => none
end

theorem memLookup_mem : ∀ (l : List (Nat × HObj)) (a : Nat) (o : HObj),
    memLookup l a = some o → (a, o) ∈ l
  | [], a, o, h => by simp [memLookup] at h
  | (a0, o0) :: rest, a, o, h => by
    by_cases he : a0 = a
    · subst he
      have ho : o0 = o := by simpa [memLookup] using h
      subst ho
      simp
    · simp only [memLookup, if_neg he] at h
      exact List.mem_cons_of_mem _ (memLookup_mem rest a o h)

theorem memLookup_append_left : ∀ (l1 l2 : List (Nat × HObj)) (a : Nat)
    (o : HObj), memLookup l1 a = some o → memLookup (l1 ++ l2) a = some o
  | [], _, a, o, h => by simp [memLookup] at h
  | (a0, o0) :: rest, l2, a, o, h => by
    by_cases he : a0 = a
    · subst he; simpa [memLookup] using h
    · simp only [memLookup, if_neg he] at h
      simp only [List.cons_append, memLookup, if_neg he]
      exact memLookup_append_left rest l2 a o h

theorem memLookup_append_right : ∀ (l1 l2 : List (Nat × HObj)) (a : Nat),
    memLookup l1 a = none → memLookup (l1 ++ l2) a = memLookup l2 a
  | [], _, _, _ => rfl
  | (a0, o0) :: rest, l2, a, h => by
    by_cases he : a0 = a
    · subst he; simp [memLookup] at h
    · simp only [memLookup, if_neg he] at h
      simp only [List.cons_append, memLookup, if_neg he]
      exact memLookup_append_right rest l2 a h

theorem memLookup_isSome : ∀ (l : List (Nat × HObj)) (a : Nat),
    a ∈ l.map Prod.fst → ∃ o, memLookup l a = some o
  | [], a, h => by simp at h
  | (a0, o0) :: rest, a, h => by
    by_cases he : a0 = a
    · subst he; exact ⟨o0, by simp [memLookup]⟩
    · simp only [List.map_cons, List.mem_cons] at h
      rcases h with h | h
      · exact absurd h.symm he
      · obtain ⟨o, ho⟩ := memLookup_isSome rest a h
        exact ⟨o, by simp [memLookup, if_neg he, ho]⟩

theorem lookup_mem_dom (h : Heap) (a : Nat) (o : HObj)
    (hl : h.lookup a = some o) : a ∈ h.dom := by
  have := memLookup_mem h.mem a o hl
  exact List.mem_map.mpr ⟨(a, o), this, rfl⟩

theorem mem_dom_lookup (h : Heap) (a : Nat) (ha : a ∈ h.dom) :
    ∃ o, h.lookup a = some o :=
  memLookup_isSome h.mem a ha

theorem updateEntries_map_fst : ∀ (l : List (Nat × HObj)) (a : Nat) (o : HObj),
    (updateEntries l a o).map Prod.fst = l.map Prod.fst
  | [], _, _ => rfl
  | (a0, o0) :: rest, a, o => by
    by_cases he : a0 = a
    · simp [updateEntries, he]
    · simp [updateEntries, he, updateEntries_map_fst rest a o]

theorem memLookup_updateEntries_self : ∀ (l : List (Nat × HObj)) (a : Nat)
    (o : HObj), a ∈ l.map Prod.fst →
    memLookup (updateEntries l a o) a = some o
  | [], a, o, h => by simp at h
  | (a0, o0) :: rest, a, o, h => by
    by_cases he : a0 = a
    · subst he; simp [updateEntries, memLookup]
    · simp only [List.map_cons, List.mem_cons] at h
      rcases h with h | h
      · exact absurd h.symm he
      · simp only [updateEntries, if_neg he, memLookup]
        exact memLookup_updateEntries_self rest a o h

theorem memLookup_updateEntries_ne : ∀ (l : List (Nat × HObj)) (a b : Nat)
    (o : HObj), b ≠ a → memLookup (updateEntries l a o) b = memLookup l b
  | [], _, _, _, _ => rfl
  | (a0, o0) :: rest, a, b, o, hne => by
    by_cases he : a0 = a
    · subst he
      have hab : a0 ≠ b := fun hc => hne hc.symm
      simp [updateEntries, memLookup, hab]
    · simp only [updateEntries, if_neg he, memLookup]
      by_cases hb : a0 = b
      · simp [hb]
      · simp [hb, memLookup_updateEntries_ne rest a b o hne]

theorem dom_update (h : Heap) (a : Nat) (o : HObj) :
    (h.update a o).dom = h.dom :=
  updateEntries_map_fst h.mem a o

theorem lookup_update_self (h : Heap) (a : Nat) (o : HObj) (ha : a ∈ h.dom) :
    (h.update a o).lookup a = some o :=
  memLookup_updateEntries_self h.mem a o ha

theorem lookup_update_ne (h : Heap) (a b : Nat) (o : HObj) (hne : b ≠ a) :
    (h.update a o).lookup b = h.lookup b :=
  memLookup_updateEntries_ne h.mem a b o hne

theorem dom_addMany (h : Heap) (news : List (Nat × HObj)) (nxt : Nat) :
    (h.addMany news nxt).dom = h.dom ++ news.map Prod.fst := by
  simp [Heap.addMany, Heap.dom]

theorem lookup_addMany_mem (h : Heap) (news : List (Nat × HObj)) (nxt : Nat)
    (a : Nat) (ha : a ∈ h.dom) :
    (h.addMany news nxt).lookup a = h.lookup a := by
  obtain ⟨o, ho⟩ := mem_dom_lookup h a ha
  show memLookup (h.mem ++ news) a = h.lookup a
  rw [memLookup_append_left h.mem news a o ho, ho]

theorem lookup_addMany_cases (h : Heap) (news : List (Nat × HObj)) (nxt : Nat)
    (a : Nat) (o : HObj) (hl : (h.addMany news nxt).lookup a = some o) :
    h.lookup a = some o ∨ (a, o) ∈ news := by
  have hthis : memLookup (h.mem ++ news) a = some o := hl
  cases hm : memLookup h.mem a with
  | some o0 =>
    have ho0 : o0 = o :=
      Option.some.inj ((memLookup_append_left h.mem news a o0 hm).symm.trans hthis)
    exact Or.inl (by show memLookup h.mem a = some o; rw [hm, ho0])
  | none =>
    rw [memLookup_append_right h.mem news a hm] at hthis
    exact Or.inr (memLookup_mem news a o hthis)

theorem mem_refs_dict : ∀ (es : List (String × HVal)) (b : Nat),
    b ∈ (HObj.dict es).refs ↔ ∃ kv ∈ es, b ∈ HVal.refsV kv.2
  | [], b => by simp [HObj.refs]
  | (k, v) :: rest, b => by
    have ih := mem_refs_dict rest b
    simp only [HObj.refs, List.foldr] at ih ⊢
    simp only [List.mem_append, ih]
    constructor
    · rintro (hb | ⟨kv, hkv, hb⟩)
      · exact ⟨(k, v), by simp, hb⟩
      · exact ⟨kv, List.mem_cons_of_mem _ hkv, hb⟩
    · rintro ⟨kv, hkv, hb⟩
      rcases List.mem_cons.mp hkv with rfl | hkv
      · exact Or.inl hb
      · exact Or.inr ⟨kv, hkv, hb⟩

theorem mem_refs_arr : ∀ (xs : List HVal) (b : Nat),
    b ∈ (HObj.arr xs).refs ↔ ∃ v ∈ xs, b ∈ HVal.refsV v
  | [], b => by simp [HObj.refs]
  | v :: rest, b => by
    have ih := mem_refs_arr rest b
    simp only [HObj.refs, List.foldr] at ih ⊢
    simp only [List.mem_append, ih]
    constructor
    · rintro (hb | ⟨w, hw, hb⟩)
      · exact ⟨v, by simp, hb⟩
      · exact ⟨w, List.mem_cons_of_mem _ hw, hb⟩
    · rintro ⟨w, hw, hb⟩
      rcases List.mem_cons.mp hw with rfl | hw
      · exact Or.inl hb
      · exact Or.inr ⟨w, hw, hb⟩

theorem entriesLookup_mem : ∀ (es : List (String × HVal)) (k : String)
    (v : HVal), entriesLookup es k = some v → (k, v) ∈ es
  | [], k, v, h => by simp [entriesLookup] at h
  | (k0, v0) :: rest, k, v, h => by
    by_cases he : k0 = k
    · subst he
      have hv : v0 = v := by simpa [entriesLookup] using h
      subst hv
      simp
    · simp only [entriesLookup, if_neg he] at h
      exact List.mem_cons_of_mem _ (entriesLookup_mem rest k v h)

theorem refs_setEntry : ∀ (es : List (String × HVal)) (k : String) (nv : HVal)
    (b : Nat), b ∈ (HObj.dict (setEntry es k nv)).refs →
      b ∈ (HObj.dict es).refs ∨ b ∈ nv.refsV
  | [], k, nv, b => by
    intro hb
    simp only [setEntry] at hb
    exact Or.inl hb
  | (k0, v0) :: rest, k, nv, b => by
    intro hb
    by_cases he : k0 = k
    · subst he
      rw [show setEntry ((k0, v0) :: rest) k0 nv = (k0, nv) :: rest by
        simp [setEntry]] at hb
      rw [mem_refs_dict] at hb
      obtain ⟨kv, hkv, hbv⟩ := hb
      rcases List.mem_cons.mp hkv with heq | hkv
      · subst heq
        exact Or.inr hbv
      · exact Or.inl ((mem_refs_dict _ b).mpr ⟨kv, List.mem_cons_of_mem _ hkv, hbv⟩)
    · rw [show setEntry ((k0, v0) :: rest) k nv = (k0, v0) :: setEntry rest k nv by
        simp [setEntry, he]] at hb
      rw [mem_refs_dict] at hb
      obtain ⟨kv, hkv, hbv⟩ := hb
      rcases List.mem_cons.mp hkv with heq | hkv
      · subst heq
        exact Or.inl ((mem_refs_dict _ b).mpr ⟨(k0, v0), by simp, hbv⟩)
      · rcases refs_setEntry rest k nv b ((mem_refs_dict _ b).mpr ⟨kv, hkv, hbv⟩)
          with hin | hin
        · rw [mem_refs_dict] at hin
          obtain ⟨kv2, hkv2, hb2⟩ := hin
          exact Or.inl ((mem_refs_dict _ b).mpr
            ⟨kv2, List.mem_cons_of_mem _ hkv2, hb2⟩)
        · exact Or.inr hin

theorem refs_appendEntry (es : List (String × HVal)) (k : String) (nv : HVal)
    (b : Nat) (hb : b ∈ (HObj.dict (es ++ [(k, nv)])).refs) :
    b ∈ (HObj.dict es).refs ∨ b ∈ nv.refsV := by
  rw [mem_refs_dict] at hb
  obtain ⟨kv, hkv, hbv⟩ := hb
  rcases List.mem_append.mp hkv with hkv | hkv
  · exact Or.inl ((mem_refs_dict _ b).mpr ⟨kv, hkv, hbv⟩)
  · simp only [List.mem_singleton] at hkv
    subst hkv
    exact Or.inr hbv

theorem isDictPair_some (h : Heap) (tv dv : HVal) (p : Nat × Nat)
    (hp : isDictPair h tv dv = some p) :
    tv = .ref p.1 ∧ dv = .ref p.2 ∧
      (∃ es, h.lookup p.1 = some (.dict es)) ∧
      (∃ es, h.lookup p.2 = some (.dict es)) := by
  obtain ⟨a, b⟩ := p
  cases tv <;> cases dv <;> simp [isDictPair] at hp
  case ref.ref a0 b0 =>
    cases h1 : h.lookup a0 with
    | none => rw [h1] at hp; simp at hp
    | some o1 =>
      cases h2 : h.lookup b0 with
      | none => rw [h1, h2] at hp; cases o1 <;> simp at hp
      | some o2 =>
        rw [h1, h2] at hp
        cases o1 <;> cases o2 <;> simp at hp
        obtain ⟨rfl, rfl⟩ := hp
        exact ⟨rfl, rfl, ⟨_, h1⟩, ⟨_, h2⟩⟩

theorem reach_trans {h : Heap} {r a x : Nat} (h1 : Reach h r a)
    (h2 : Reach h a x) : Reach h r x := by
  induction h2 with
  | base => exact h1
  | step _ hlook hb ih => exact Reach.step ih hlook hb

theorem reach_sub (h h2 : Heap) (root : Nat)
    (hcl : ∀ a, (Reach h root a ∨ h.next ≤ a) → ∀ o, h2.lookup a = some o →
      ∀ b ∈ o.refs, Reach h root b ∨ h.next ≤ b) :
    ∀ x, Reach h2 root x → Reach h root x ∨ h.next ≤ x := by
  intro x hx
  induction hx with
  | base => exact Or.inl Reach.base
  | step _ hlook hb ih => exact hcl _ ih _ hlook _ hb

mutual
/-- Every address a deepcopy mentions — the addresses of the fresh
objects, the addresses those objects reference, and the addresses the
copied value references — lies in the freshly allocated range
`[nxt, nxt2)`. -/
theorem deepcopyVal_spec : ∀ (fuel : Nat) (h : Heap) (v : HVal) (nxt : Nat)
    (v2 : HVal) (news : List (Nat × HObj)) (nxt2 : Nat),
    deepcopyVal fuel h v nxt = some (v2, news, nxt2) →
    nxt ≤ nxt2 ∧
    (∀ p ∈ news, (nxt ≤ p.1 ∧ p.1 < nxt2) ∧
      ∀ b ∈ HObj.refs p.2, nxt ≤ b ∧ b < nxt2) ∧
    (∀ b ∈ HVal.refsV v2, nxt ≤ b ∧ b < nxt2)
  | 0, h, v, nxt, v2, news, nxt2, hc => by simp [deepcopyVal] at hc
  | fuel + 1, h, v, nxt, v2, news, nxt2, hc => by
    cases v with
    | ref a =>
      simp only [deepcopyVal] at hc
      cases hla : h.lookup a with
      | none => simp [hla] at hc
      | some o =>
        cases o with
        | dict es =>
          simp only [hla] at hc
          cases hdc : deepcopyEntries fuel h es nxt with
          | none => simp [hdc] at hc
          | some r =>
            obtain ⟨es2, news1, nxtE⟩ := r
            simp only [hdc] at hc
            simp only [Option.some.injEq, Prod.mk.injEq] at hc
            obtain ⟨hv2, hnews, hnxt2⟩ := hc
            subst hv2; subst hnews; subst hnxt2
            obtain ⟨ih1, ih2, ih3⟩ :=
              deepcopyEntries_spec fuel h es nxt es2 news1 nxtE hdc
            refine ⟨by omega, ?_, ?_⟩
            · intro p hp
              rcases List.mem_append.mp hp with hp | hp
              · obtain ⟨⟨hp1, hp2⟩, hp3⟩ := ih2 p hp
                exact ⟨⟨by omega, by omega⟩, fun b hb => by
                  obtain ⟨hb1, hb2⟩ := hp3 b hb
                  exact ⟨by omega, by omega⟩⟩
              · simp only [List.mem_singleton] at hp
                subst hp
                refine ⟨⟨by omega, by omega⟩, ?_⟩
                intro b hb
                rw [mem_refs_dict] at hb
                obtain ⟨kv, hkv, hbv⟩ := hb
                obtain ⟨hb1, hb2⟩ := ih3 kv hkv b hbv
                exact ⟨by omega, by omega⟩
            · intro b hb
              simp only [HVal.refsV, List.mem_singleton] at hb
              subst hb
              exact ⟨by omega, by omega⟩
        | arr xs =>
          simp only [hla] at hc
          cases hdc : deepcopyElems fuel h xs nxt with
          | none => simp [hdc] at hc
          | some r =>
            obtain ⟨xs2, news1, nxtE⟩ := r
            simp only [hdc] at hc
            simp only [Option.some.injEq, Prod.mk.injEq] at hc
            obtain ⟨hv2, hnews, hnxt2⟩ := hc
            subst hv2; subst hnews; subst hnxt2
            obtain ⟨ih1, ih2, ih3⟩ :=
              deepcopyElems_spec fuel h xs nxt xs2 news1 nxtE hdc
            refine ⟨by omega, ?_, ?_⟩
            · intro p hp
              rcases List.mem_append.mp hp with hp | hp
              · obtain ⟨⟨hp1, hp2⟩, hp3⟩ := ih2 p hp
                exact ⟨⟨by omega, by omega⟩, fun b hb => by
                  obtain ⟨hb1, hb2⟩ := hp3 b hb
                  exact ⟨by omega, by omega⟩⟩
              · simp only [List.mem_singleton] at hp
                subst hp
                refine ⟨⟨by omega, by omega⟩, ?_⟩
                intro b hb
                rw [mem_refs_arr] at hb
                obtain ⟨w, hw, hbv⟩ := hb
                obtain ⟨hb1, hb2⟩ := ih3 w hw b hbv
                exact ⟨by omega, by omega⟩
            · intro b hb
              simp only [HVal.refsV, List.mem_singleton] at hb
              subst hb
              exact ⟨by omega, by omega⟩
    | null =>
      simp only [deepcopyVal, Option.some.injEq, Prod.mk.injEq] at hc
      obtain ⟨hv2, hnews, hnxt2⟩ := hc
      subst hv2; subst hnews; subst hnxt2
      exact ⟨Nat.le_refl _, by simp, by simp [HVal.refsV]⟩
    | bool b0 =>
      simp only [deepcopyVal, Option.some.injEq, Prod.mk.injEq] at hc
      obtain ⟨hv2, hnews, hnxt2⟩ := hc
      subst hv2; subst hnews; subst hnxt2
      exact ⟨Nat.le_refl _, by simp, by simp [HVal.refsV]⟩
    | int n0 =>
      simp only [deepcopyVal, Option.some.injEq, Prod.mk.injEq] at hc
      obtain ⟨hv2, hnews, hnxt2⟩ := hc
      subst hv2; subst hnews; subst hnxt2
      exact ⟨Nat.le_refl _, by simp, by simp [HVal.refsV]⟩
    | str s0 =>
      simp only [deepcopyVal, Option.some.injEq, Prod.mk.injEq] at hc
      obtain ⟨hv2, hnews, hnxt2⟩ := hc
      subst hv2; subst hnews; subst hnxt2
      exact ⟨Nat.le_refl _, by simp, by simp [HVal.refsV]⟩

theorem deepcopyEntries_spec : ∀ (fuel : Nat) (h : Heap)
    (es : List (String × HVal)) (nxt : Nat) (es2 : List (String × HVal))
    (news : List (Nat × HObj)) (nxt2 : Nat),
    deepcopyEntries fuel h es nxt = some (es2, news, nxt2) →
    nxt ≤ nxt2 ∧
    (∀ p ∈ news, (nxt ≤ p.1 ∧ p.1 < nxt2) ∧
      ∀ b ∈ HObj.refs p.2, nxt ≤ b ∧ b < nxt2) ∧
    (∀ kv ∈ es2, ∀ b ∈ HVal.refsV kv.2, nxt ≤ b ∧ b < nxt2)
  | 0, h, es, nxt, es2, news, nxt2, hc => by simp [deepcopyEntries] at hc
  | fuel + 1, h, [], nxt, es2, news, nxt2, hc => by
    simp only [deepcopyEntries, Option.some.injEq, Prod.mk.injEq] at hc
    obtain ⟨h1, h2, h3⟩ := hc
    subst h1; subst h2; subst h3
    exact ⟨Nat.le_refl _, by simp, by simp⟩
  | fuel + 1, h, (k, v) :: rest, nxt, es2, news, nxt2, hc => by
    simp only [deepcopyEntries] at hc
    cases h1 : deepcopyVal fuel h v nxt with
    | none => simp [h1] at hc
    | some r1 =>
      obtain ⟨v2, news1, nxt1⟩ := r1
      simp only [h1] at hc
      cases h2 : deepcopyEntries fuel h rest nxt1 with
      | none => simp [h2] at hc
      | some r2 =>
        obtain ⟨rest2, news2, nxtB⟩ := r2
        simp only [h2] at hc
        simp only [Option.some.injEq, Prod.mk.injEq] at hc
        obtain ⟨he, hn, hx⟩ := hc
        subst he; subst hn; subst hx
        obtain ⟨ia1, ia2, ia3⟩ := deepcopyVal_spec fuel h v nxt v2 news1 nxt1 h1
        obtain ⟨ib1, ib2, ib3⟩ :=
          deepcopyEntries_spec fuel h rest nxt1 rest2 news2 nxtB h2
        refine ⟨by omega, ?_, ?_⟩
        · intro p hp
          rcases List.mem_append.mp hp with hp | hp
          · obtain ⟨⟨hp1, hp2⟩, hp3⟩ := ia2 p hp
            exact ⟨⟨by omega, by omega⟩, fun b hb => by
              obtain ⟨hb1, hb2⟩ := hp3 b hb
              exact ⟨by omega, by omega⟩⟩
          · obtain ⟨⟨hp1, hp2⟩, hp3⟩ := ib2 p hp
            exact ⟨⟨by omega, by omega⟩, fun b hb => by
              obtain ⟨hb1, hb2⟩ := hp3 b hb
              exact ⟨by omega, by omega⟩⟩
        · intro kv hkv b hb
          rcases List.mem_cons.mp hkv with heq | hkv
          · subst heq
            obtain ⟨hb1, hb2⟩ := ia3 b hb
            exact ⟨by omega, by omega⟩
          · obtain ⟨hb1, hb2⟩ := ib3 kv hkv b hb
            exact ⟨by omega, by omega⟩

theorem deepcopyElems_spec : ∀ (fuel : Nat) (h : Heap) (xs : List HVal)
    (nxt : Nat) (xs2 : List HVal) (news : List (Nat × HObj)) (nxt2 : Nat),
    deepcopyElems fuel h xs nxt = some (xs2, news, nxt2) →
    nxt ≤ nxt2 ∧
    (∀ p ∈ news, (nxt ≤ p.1 ∧ p.1 < nxt2) ∧
      ∀ b ∈ HObj.refs p.2, nxt ≤ b ∧ b < nxt2) ∧
    (∀ w ∈ xs2, ∀ b ∈ HVal.refsV w, nxt ≤ b ∧ b < nxt2)
  | 0, h, xs, nxt, xs2, news, nxt2, hc => by simp [deepcopyElems] at hc
  | fuel + 1, h, [], nxt, xs2, news, nxt2, hc => by
    simp only [deepcopyElems, Option.some.injEq, Prod.mk.injEq] at hc
    obtain ⟨h1, h2, h3⟩ := hc
    subst h1; subst h2; subst h3
    exact ⟨Nat.le_refl _, by simp, by simp⟩
  | fuel + 1, h, v :: rest, nxt, xs2, news, nxt2, hc => by
    simp only [deepcopyElems] at hc
    cases h1 : deepcopyVal fuel h v nxt with
    | none => simp [h1] at hc
    | some r1 =>
      obtain ⟨v2, news1, nxt1⟩ := r1
      simp only [h1] at hc
      cases h2 : deepcopyElems fuel h rest nxt1 with
      | none => simp [h2] at hc
      | some r2 =>
        obtain ⟨rest2, news2, nxtB⟩ := r2
        simp only [h2] at hc
        simp only [Option.some.injEq, Prod.mk.injEq] at hc
        obtain ⟨he, hn, hx⟩ := hc
        subst he; subst hn; subst hx
        obtain ⟨ia1, ia2, ia3⟩ := deepcopyVal_spec fuel h v nxt v2 news1 nxt1 h1
        obtain ⟨ib1, ib2, ib3⟩ :=
          deepcopyElems_spec fuel h rest nxt1 rest2 news2 nxtB h2
        refine ⟨by omega, ?_, ?_⟩
        · intro p hp
          rcases List.mem_append.mp hp with hp | hp
          · obtain ⟨⟨hp1, hp2⟩, hp3⟩ := ia2 p hp
            exact ⟨⟨by omega, by omega⟩, fun b hb => by
              obtain ⟨hb1, hb2⟩ := hp3 b hb
              exact ⟨by omega, by omega⟩⟩
          · obtain ⟨⟨hp1, hp2⟩, hp3⟩ := ib2 p hp
            exact ⟨⟨by omega, by omega⟩, fun b hb => by
              obtain ⟨hb1, hb2⟩ := hp3 b hb
              exact ⟨by omega, by omega⟩⟩
        · intro w hw b hb
          rcases List.mem_cons.mp hw with heq | hw
          · subst heq
            obtain ⟨hb1, hb2⟩ := ia3 b hb
            exact ⟨by omega, by omega⟩
          · obtain ⟨hb1, hb2⟩ := ib3 w hw b hb
            exact ⟨by omega, by omega⟩
end

/-- What one merge step (or a whole merge) does to the heap, seen from
the target root `ta`: the heap counter only grows, the domain only grows
by fresh addresses, addresses outside the target's reachable region are
untouched, and objects inside the target's region (old or fresh) only
reference the target's region (old or fresh). -/
def StepSpec (h h2 : Heap) (ta : Nat) : Prop :=
  (∀ a ∈ h2.dom, a < h2.next) ∧
  h.next ≤ h2.next ∧
  (∀ a ∈ h.dom, a ∈ h2.dom) ∧
  (∀ a ∈ h2.dom, a ∈ h.dom ∨ h.next ≤ a) ∧
  (∀ a, a ∈ h.dom → ¬ Reach h ta a → h2.lookup a = h.lookup a) ∧
  (∀ a, (Reach h ta a ∨ h.next ≤ a) → ∀ o, h2.lookup a = some o →
    ∀ b ∈ o.refs, Reach h ta b ∨ h.next ≤ b)

theorem stepSpec_refl (h : Heap) (ta : Nat)
    (hb : ∀ a ∈ h.dom, a < h.next) : StepSpec h h ta := by
  refine ⟨hb, Nat.le_refl _, fun a ha => ha, fun a ha => Or.inl ha,
    fun _ _ _ => rfl, ?_⟩
  intro a hS o ho b hbref
  rcases hS with hr | hge
  · exact Or.inl (Reach.step hr ho hbref)
  · have := hb a (lookup_mem_dom h a o ho)
    omega

theorem stepSpec_trans (h h1 h2 : Heap) (ta : Nat)
    (hb : ∀ a ∈ h.dom, a < h.next)
    (s1 : StepSpec h h1 ta) (s2 : StepSpec h1 h2 ta) : StepSpec h h2 ta := by
  obtain ⟨a1, b1, c1, d1, e1, f1⟩ := s1
  obtain ⟨a2, b2, c2, d2, e2, f2⟩ := s2
  refine ⟨a2, Nat.le_trans b1 b2, fun a ha => c2 a (c1 a ha), ?_, ?_, ?_⟩
  · intro a ha
    rcases d2 a ha with ha1 | hge
    · rcases d1 a ha1 with ha0 | hge
      · exact Or.inl ha0
      · exact Or.inr hge
    · exact Or.inr (Nat.le_trans b1 hge)
  · intro a ha hnr
    have hnr1 : ¬ Reach h1 ta a := by
      intro hr1
      rcases reach_sub h h1 ta f1 a hr1 with hr | hge
      · exact hnr hr
      · have := hb a ha
        omega
    rw [e2 a (c1 a ha) hnr1]
    exact e1 a ha hnr
  · intro a hS o ho b hbref
    by_cases hS1 : Reach h1 ta a ∨ h1.next ≤ a
    · rcases f2 a hS1 o ho b hbref with hr1 | hge1
      · rcases reach_sub h h1 ta f1 b hr1 with hr | hge
        · exact Or.inl hr
        · exact Or.inr hge
      · exact Or.inr (Nat.le_trans b1 hge1)
    · push_neg at hS1
      obtain ⟨hnr1, hlt1⟩ := hS1
      by_cases hdom1 : a ∈ h1.dom
      · rw [e2 a hdom1 hnr1] at ho
        exact f1 a hS o ho b hbref
      · exfalso
        rcases d2 a (lookup_mem_dom h2 a o ho) with hmem | hge
        · exact hdom1 hmem
        · omega

/-- Lift a merge of a sub-dict of the target to a step on the whole
target. -/
theorem stepSpec_sub (h h1 : Heap) (ta aT : Nat)
    (hb : ∀ a ∈ h.dom, a < h.next)
    (hreach : Reach h ta aT) (s : StepSpec h h1 aT) : StepSpec h h1 ta := by
  obtain ⟨a1, b1, c1, d1, e1, f1⟩ := s
  refine ⟨a1, b1, c1, d1, ?_, ?_⟩
  · intro a ha hnr
    exact e1 a ha (fun hr => hnr (reach_trans hreach hr))
  · intro a hS o ho b hbref
    by_cases hS' : Reach h aT a ∨ h.next ≤ a
    · rcases f1 a hS' o ho b hbref with hr | hge
      · exact Or.inl (reach_trans hreach hr)
      · exact Or.inr hge
    · push_neg at hS'
      obtain ⟨hnr', hlt'⟩ := hS'
      by_cases hdom : a ∈ h.dom
      · rw [e1 a hdom hnr'] at ho
        rcases hS with hr | hge
        · exact Or.inl (Reach.step hr ho hbref)
        · omega
      · exfalso
        rcases d1 a (lookup_mem_dom h1 a o ho) with hmem | hge
        · exact hdom hmem
        · omega

/-- A single dict-entry write plus the allocation of a deepcopy is a
step: it touches only `ta` and fresh addresses. -/
theorem stepSpec_write (h : Heap) (ta : Nat) (tes : List (String × HVal))
    (newdict : HObj) (news : List (Nat × HObj)) (nxt2 : Nat)
    (hb : ∀ a ∈ h.dom, a < h.next)
    (hta : h.lookup ta = some (.dict tes))
    (hnews_addr : ∀ p ∈ news, h.next ≤ p.1 ∧ p.1 < nxt2)
    (hnews_refs : ∀ p ∈ news, ∀ b ∈ HObj.refs p.2, h.next ≤ b ∧ b < nxt2)
    (hnext2 : h.next ≤ nxt2)
    (hnd_refs : ∀ b ∈ newdict.refs,
      b ∈ (HObj.dict tes).refs ∨ (h.next ≤ b ∧ b < nxt2)) :
    StepSpec h ((h.addMany news nxt2).update ta newdict) ta := by
  have htadom : ta ∈ h.dom := lookup_mem_dom h ta _ hta
  have hdom : ((h.addMany news nxt2).update ta newdict).dom =
      h.dom ++ news.map Prod.fst := by
    rw [dom_update, dom_addMany]
  have hnext : ((h.addMany news nxt2).update ta newdict).next = nxt2 := rfl
  refine ⟨?_, ?_, ?_, ?_, ?_, ?_⟩
  · intro a ha
    rw [hdom] at ha
    rw [hnext]
    rcases List.mem_append.mp ha with ha | ha
    · have := hb a ha
      omega
    · obtain ⟨p, hp, hpa⟩ := List.mem_map.mp ha
      have := (hnews_addr p hp).2
      omega
  · rw [hnext]
    exact hnext2
  · intro a ha
    rw [hdom]
    exact List.mem_append.mpr (Or.inl ha)
  · intro a ha
    rw [hdom] at ha
    rcases List.mem_append.mp ha with ha | ha
    · exact Or.inl ha
    · obtain ⟨p, hp, hpa⟩ := List.mem_map.mp ha
      have := (hnews_addr p hp).1
      omega
  · intro a ha hnr
    have hne : a ≠ ta := fun hc => hnr (hc ▸ Reach.base)
    rw [lookup_update_ne _ ta a newdict hne]
    exact lookup_addMany_mem h news nxt2 a ha
  · intro a hS o ho b hbref
    by_cases hat : a = ta
    · subst hat
      rw [lookup_update_self _ a newdict (by
        rw [dom_addMany]; exact List.mem_append.mpr (Or.inl htadom))] at ho
      have hodef := Option.some.inj ho
      subst hodef
      rcases hnd_refs b hbref with hin | hge
      · exact Or.inl (Reach.step Reach.base hta hin)
      · exact Or.inr hge.1
    · rw [lookup_update_ne _ ta a newdict hat] at ho
      rcases lookup_addMany_cases h news nxt2 a o ho with ho' | hmem
      · rcases hS with hr | hge
        · exact Or.inl (Reach.step hr ho' hbref)
        · have := hb a (lookup_mem_dom h a o ho')
          omega
      · have := hnews_refs (a, o) hmem b hbref
        exact Or.inr this.1

/-- Reachability transfers back along a frame: if every address reachable
from `root` in `h` has the same contents in `h2`, then reachability in
`h2` implies reachability in `h`. -/
theorem reach_of_frame (h h2 : Heap) (root : Nat)
    (hfr : ∀ a, Reach h root a → h2.lookup a = h.lookup a) :
    ∀ x, Reach h2 root x → Reach h root x := by
  intro x hx
  induction hx with
  | base => exact Reach.base
  | step hra hlook hb ih =>
    exact Reach.step ih (by rw [← hfr _ ih]; exact hlook) hb

/-- The addresses an object at `a` directly references (computable). -/
def refsOf (h : Heap) (a : Nat) : List Nat :=
  match h.lookup a with
  | some o => o.refs
  | none => []

/-- A closed address list over-approximates reachability. -/
theorem reach_closed (h : Heap) (root : Nat) (L : List Nat)
    (hroot : root ∈ L)
    (hcl : ∀ a ∈ L, ∀ b ∈ refsOf h a, b ∈ L) :
    ∀ x, Reach h root x → x ∈ L := by
  intro x hx
  induction hx with
  | base => exact hroot
  | step hra hlook hb ih =>
    exact hcl _ ih _ (by simp only [refsOf, hlook]; exact hb)

/-- Chain one merge step with the processing of the remaining defaults
entries: the hypotheses about the defaults region `D` transfer across the
step because the step never touches `D`. -/
theorem entries_step_chain (h hA h2 : Heap) (ta : Nat)
    (rest : List (String × HVal)) (D : Nat → Prop)
    (hbound : ∀ a ∈ h.dom, a < h.next)
    (hta : ta ∈ h.dom)
    (hDdom : ∀ a, D a → a ∈ h.dom)
    (hDcl : ∀ a, D a → ∀ o, h.lookup a = some o → ∀ b ∈ o.refs, D b)
    (hdes : ∀ kv ∈ rest, ∀ b ∈ HVal.refsV kv.2, D b)
    (hdisj : ∀ x, Reach h ta x → D x → False)
    (s1 : StepSpec h hA ta)
    (hrec : (∀ a ∈ hA.dom, a < hA.next) → ta ∈ hA.dom →
      (∀ a, D a → a ∈ hA.dom) →
      (∀ a, D a → ∀ o, hA.lookup a = some o → ∀ b ∈ o.refs, D b) →
      (∀ kv ∈ rest, ∀ b ∈ HVal.refsV kv.2, D b) →
      (∀ x, Reach hA ta x → D x → False) →
      StepSpec hA h2 ta) :
    StepSpec h h2 ta := by
  obtain ⟨a1, b1, c1, d1, e1, f1⟩ := s1
  have hDeq : ∀ a, D a → hA.lookup a = h.lookup a := fun a hDa =>
    e1 a (hDdom a hDa) (fun hr => hdisj a hr hDa)
  have hDdomA : ∀ a, D a → a ∈ hA.dom := fun a hDa => c1 a (hDdom a hDa)
  have hDclA : ∀ a, D a → ∀ o, hA.lookup a = some o → ∀ b ∈ o.refs, D b :=
    fun a hDa o ho => hDcl a hDa o ((hDeq a hDa).symm.trans ho)
  have hdisjA : ∀ x, Reach hA ta x → D x → False := fun x hrx hDx => by
    rcases reach_sub h hA ta f1 x hrx with hr | hge
    · exact hdisj x hr hDx
    · have := hbound x (hDdom x hDx)
      omega
  exact stepSpec_trans h hA h2 ta hbound ⟨a1, b1, c1, d1, e1, f1⟩
    (hrec a1 (c1 ta hta) hDdomA hDclA hdes hdisjA)

mutual
/-- `applyDefaultsH` is a step on the target region: it never touches the
(disjoint) defaults region `D`, only allocates fresh addresses, and never
makes the target region reference `D`. -/
theorem applyDefaultsH_spec (ig ov : String → HVal → Heap → Bool) :
    ∀ (fuel : Nat) (h : Heap) (ta da : Nat) (h2 : Heap),
    applyDefaultsH ig ov fuel h ta da = some h2 →
    ∀ (D : Nat → Prop),
    (∀ a ∈ h.dom, a < h.next) →
    ta ∈ h.dom →
    (∀ a, D a → a ∈ h.dom) →
    (∀ a, D a → ∀ o, h.lookup a = some o → ∀ b ∈ o.refs, D b) →
    D da →
    (∀ x, Reach h ta x → D x → False) →
    StepSpec h h2 ta
  | 0, h, ta, da, h2, hc => by simp [applyDefaultsH] at hc
  | fuel + 1, h, ta, da, h2, hc => by
    intro D hbound hta hDdom hDcl hDda hdisj
    simp only [applyDefaultsH] at hc
    cases hla : h.lookup da with
    | none => simp [hla] at hc
    | some o =>
      cases o with
      | arr xs => simp [hla] at hc
      | dict des =>
        simp only [hla] at hc
        have hdes : ∀ kv ∈ des, ∀ b ∈ HVal.refsV kv.2, D b :=
          fun kv hkv b hb =>
            hDcl da hDda (.dict des) hla b ((mem_refs_dict des b).mpr ⟨kv, hkv, hb⟩)
        exact applyEntriesH_spec ig ov fuel h ta des h2 hc D hbound hta
          hDdom hDcl hdes hdisj

/-- The entries loop of `applyDefaultsH` is a step on the target region. -/
theorem applyEntriesH_spec (ig ov : String → HVal → Heap → Bool) :
    ∀ (fuel : Nat) (h : Heap) (ta : Nat) (des : List (String × HVal))
      (h2 : Heap),
    applyEntriesH ig ov fuel h ta des = some h2 →
    ∀ (D : Nat → Prop),
    (∀ a ∈ h.dom, a < h.next) →
    ta ∈ h.dom →
    (∀ a, D a → a ∈ h.dom) →
    (∀ a, D a → ∀ o, h.lookup a = some o → ∀ b ∈ o.refs, D b) →
    (∀ kv ∈ des, ∀ b ∈ HVal.refsV kv.2, D b) →
    (∀ x, Reach h ta x → D x → False) →
    StepSpec h h2 ta
  | 0, h, ta, des, h2, hc => by simp [applyEntriesH] at hc
  | fuel + 1, h, ta, [], h2, hc => by
    intro D hbound hta hDdom hDcl hdes hdisj
    simp only [applyEntriesH, Option.some.injEq] at hc
    subst hc
    exact stepSpec_refl h ta hbound
  | fuel + 1, h, ta, (k, dv) :: rest, h2, hc => by
    intro D hbound hta hDdom hDcl hdes hdisj
    simp only [applyEntriesH] at hc
    have hdesRest : ∀ kv ∈ rest, ∀ b ∈ HVal.refsV kv.2, D b :=
      fun kv hkv => hdes kv (List.mem_cons_of_mem _ hkv)
    cases hlt : h.lookup ta with
    | none => simp [hlt] at hc
    | some o0 =>
      cases o0 with
      | arr xs => simp [hlt] at hc
      | dict tes =>
        simp only [hlt] at hc
        cases hel : entriesLookup tes k with
        | some tv =>
          simp only [hel] at hc
          cases hdp : isDictPair h tv dv with
          | some p =>
            simp only [hdp] at hc
            cases hsubc : applyDefaultsH ig ov fuel h p.1 p.2 with
            | none => simp [hsubc] at hc
            | some hA =>
              simp only [hsubc] at hc
              obtain ⟨htv, hdv, ⟨tesT, hlp1⟩, ⟨desD, hlp2⟩⟩ :=
                isDictPair_some h tv dv p hdp
              have hD2 : D p.2 :=
                hdes (k, dv) (by simp) p.2 (by rw [hdv]; simp [HVal.refsV])
              have hreach1 : Reach h ta p.1 :=
                Reach.step Reach.base hlt ((mem_refs_dict tes p.1).mpr
                  ⟨(k, tv), entriesLookup_mem tes k tv hel,
                   by rw [htv]; simp [HVal.refsV]⟩)
              have hsubdisj : ∀ x, Reach h p.1 x → D x → False :=
                fun x hrx hDx => hdisj x (reach_trans hreach1 hrx) hDx
              have s1 := stepSpec_sub h hA ta p.1 hbound hreach1
                (applyDefaultsH_spec ig ov fuel h p.1 p.2 hA hsubc D hbound
                  (lookup_mem_dom h p.1 _ hlp1) hDdom hDcl hD2 hsubdisj)
              exact entries_step_chain h hA h2 ta rest D hbound hta hDdom hDcl
                hdesRest hdisj s1
                (fun hb2 ht2 hd2 hcl2 hde2 hdj2 =>
                  applyEntriesH_spec ig ov fuel hA ta rest h2 hc D hb2 ht2
                    hd2 hcl2 hde2 hdj2)
          | none =>
            simp only [hdp] at hc
            by_cases hov : ov k tv h = true
            · simp only [hov, if_true] at hc
              cases hcp : deepcopyVal fuel h dv h.next with
              | none => simp [hcp] at hc
              | some r =>
                obtain ⟨dv2, news, nxt2⟩ := r
                simp only [hcp] at hc
                obtain ⟨ic1, ic2, ic3⟩ :=
                  deepcopyVal_spec fuel h dv h.next dv2 news nxt2 hcp
                have s1 := stepSpec_write h ta tes
                  (.dict (setEntry tes k dv2)) news nxt2 hbound hlt
                  (fun p hp => (ic2 p hp).1) (fun p hp => (ic2 p hp).2) ic1
                  (fun b hb => by
                    rcases refs_setEntry tes k dv2 b hb with hin | hin
                    · exact Or.inl hin
                    · exact Or.inr (ic3 b hin))
                exact entries_step_chain h _ h2 ta rest D hbound hta hDdom hDcl
                  hdesRest hdisj s1
                  (fun hb2 ht2 hd2 hcl2 hde2 hdj2 =>
                    applyEntriesH_spec ig ov fuel _ ta rest h2 hc D hb2 ht2
                      hd2 hcl2 hde2 hdj2)
            · simp only [hov, if_false, Bool.false_eq_true] at hc
              exact applyEntriesH_spec ig ov fuel h ta rest h2 hc D hbound hta
                hDdom hDcl hdesRest hdisj
        | none =>
          simp only [hel] at hc
          by_cases hig : ig k dv h = true
          · simp only [hig, if_true] at hc
            exact applyEntriesH_spec ig ov fuel h ta rest h2 hc D hbound hta
              hDdom hDcl hdesRest hdisj
          · simp only [hig, if_false, Bool.false_eq_true] at hc
            cases hcp : deepcopyVal fuel h dv h.next with
            | none => simp [hcp] at hc
            | some r =>
              obtain ⟨dv2, news, nxt2⟩ := r
              simp only [hcp] at hc
              obtain ⟨ic1, ic2, ic3⟩ :=
                deepcopyVal_spec fuel h dv h.next dv2 news nxt2 hcp
              have s1 := stepSpec_write h ta tes
                (.dict (tes ++ [(k, dv2)])) news nxt2 hbound hlt
                (fun p hp => (ic2 p hp).1) (fun p hp => (ic2 p hp).2) ic1
                (fun b hb => by
                  rcases refs_appendEntry tes k dv2 b hb with hin | hin
                  · exact Or.inl hin
                  · exact Or.inr (ic3 b hin))
              exact entries_step_chain h _ h2 ta rest D hbound hta hDdom hDcl
                hdesRest hdisj s1
                (fun hb2 ht2 hd2 hcl2 hde2 hdj2 =>
                  applyEntriesH_spec ig ov fuel _ ta rest h2 hc D hb2 ht2
                    hd2 hcl2 hde2 hdj2)
end

end HeapD

/-- The Python default predicates of `apply_defaults`
(`lambda _k, _v: False`). -/
def c10IgF : String → HeapD.HVal → HeapD.Heap → Bool := fun _ _ _ => false

/-- The Python default predicates of `apply_defaults`
(`lambda _k, _v: False`). -/
def c10OvF : String → HeapD.HVal → HeapD.Heap → Bool := fun _ _ _ => false

/-- Heap for the C10 counterexample: the dict at address 2 is shared —
it is the target's value under `"a"` AND the defaults' value under
`"c"`.  Target dict at 0, defaults dict at 1. -/
def c10CexHeap : HeapD.Heap :=
  ⟨[(0, .dict [("a", .ref 2)]),
    (1, .dict [("a", .ref 3), ("c", .ref 2)]),
    (2, .dict []),
    (3, .dict [("b", .int 1)])], 4⟩

/-- Claim C10 (counterexample): the claim says the defaults mapping is
left completely unchanged by EVERY call.  When the target and the
defaults share a mutable dict, the recursive in-place merge writes into
that shared dict: address 2 is reachable from the defaults root 1 (via
key `"c"`), yet after the call its object changed from `{}` to
`{"b": 1}` — the defaults mapping was mutated. -/
theorem c10_apply_defaults_aliasing_counterexample :
    HeapD.Reach c10CexHeap 1 2 ∧
    c10CexHeap.lookup 2 = some (.dict []) ∧
    (match HeapD.applyDefaultsH c10IgF c10OvF 10 c10CexHeap 0 1 with
      | some hOut => hOut.lookup 2
      | none => none) = some (.dict [("b", .int 1)]) := by
  refine ⟨?_, by decide, by decide⟩
  exact HeapD.Reach.step HeapD.Reach.base
    (show c10CexHeap.lookup 1 = some (.dict [("a", .ref 3), ("c", .ref 2)])
      from rfl)
    (by decide)

/-- Claim C10 (amended): for every call to the heap-level default-merge
whose target and defaults regions are initially disjoint (no mutable
structure reachable from both roots), every address reachable from the
defaults root keeps exactly its contents (the defaults mapping is left
completely unchanged), and afterwards no address is reachable from both
the returned target and the defaults — the values copied from the
defaults are deep copies into fresh addresses. -/
theorem c10_apply_defaults_aliasing_amended
    (ig ov : String → HeapD.HVal → HeapD.Heap → Bool) (fuel : Nat)
    (h h2 : HeapD.Heap) (ta da : Nat)
    (hbound : ∀ a ∈ h.dom, a < h.next)
    (hta : ta ∈ h.dom)
    (hdaDom : ∀ a, HeapD.Reach h da a → a ∈ h.dom)
    (hdisj : ∀ x, HeapD.Reach h ta x → HeapD.Reach h da x → False)
    (hc : HeapD.applyDefaultsH ig ov fuel h ta da = some h2) :
    (∀ a, HeapD.Reach h da a → h2.lookup a = h.lookup a) ∧
    (∀ x, HeapD.Reach h2 ta x → HeapD.Reach h2 da x → False) := by
  have spec := HeapD.applyDefaultsH_spec ig ov fuel h ta da h2 hc
    (HeapD.Reach h da) hbound hta hdaDom
    (fun a hDa o ho b hb => HeapD.Reach.step hDa ho hb)
    HeapD.Reach.base hdisj
  obtain ⟨a1, b1, c1, d1, e1, f1⟩ := spec
  have hframe : ∀ a, HeapD.Reach h da a → h2.lookup a = h.lookup a :=
    fun a hDa => e1 a (hdaDom a hDa) (fun hr => hdisj a hr hDa)
  refine ⟨hframe, ?_⟩
  intro x hx2 hd2
  have hdx : HeapD.Reach h da x := HeapD.reach_of_frame h h2 da hframe x hd2
  rcases HeapD.reach_sub h h2 ta f1 x hx2 with hr | hge
  · exact hdisj x hr hdx
  · have := hbound x (hdaDom x hdx)
    omega

/-- Heap for the C10 witness: target region `{0, 2}` and defaults region
`{1, 3}` are disjoint. -/
def c10Wheap : HeapD.Heap :=
  ⟨[(0, .dict [("a", .ref 2)]),
    (1, .dict [("a", .ref 3)]),
    (2, .dict []),
    (3, .dict [("b", .int 1)])], 4⟩

/-- Result heap of the C10 witness merge. -/
def c10WheapOut : HeapD.Heap :=
  ⟨[(0, .dict [("a", .ref 2)]),
    (1, .dict [("a", .ref 3)]),
    (2, .dict [("b", .int 1)]),
    (3, .dict [("b", .int 1)])], 4⟩

/-- Witness for the amended C10 theorem at a concrete disjoint heap. -/
theorem c10_apply_defaults_aliasing_amended_witness :
    (∀ a, HeapD.Reach c10Wheap 1 a →
      c10WheapOut.lookup a = c10Wheap.lookup a) ∧
    (∀ x, HeapD.Reach c10WheapOut 0 x → HeapD.Reach c10WheapOut 1 x →
      False) := by
  have hdaDom : ∀ a, HeapD.Reach c10Wheap 1 a → a ∈ c10Wheap.dom := by
    intro a hr
    have hmem := HeapD.reach_closed c10Wheap 1 [1, 3] (by decide) (by decide) a hr
    have hsub : ∀ y ∈ ([1, 3] : List Nat), y ∈ c10Wheap.dom := by decide
    exact hsub a hmem
  have hdisj : ∀ x, HeapD.Reach c10Wheap 0 x → HeapD.Reach c10Wheap 1 x →
      False := by
    intro x h0 h1
    have m0 := HeapD.reach_closed c10Wheap 0 [0, 2] (by decide) (by decide) x h0
    have m1 := HeapD.reach_closed c10Wheap 1 [1, 3] (by decide) (by decide) x h1
    have hnot : ∀ y ∈ ([0, 2] : List Nat), y ∉ ([1, 3] : List Nat) := by decide
    exact hnot x m0 m1
  exact c10_apply_defaults_aliasing_amended c10IgF c10OvF 10 c10Wheap
    c10WheapOut 0 1 (by decide) (by decide) hdaDom hdisj (by decide)
